import Mathlib

/-!
Verification of the mlpack binary space tree and its distributed dual-tree
traversal (files `binary_space_tree_impl.hpp`,
`distributed_binary_traversal_impl.hpp`).

The shallow embedding models:
* `BSTree` — the `BinarySpaceTree` node: a (begin, count) range plus two
  independently nullable child pointers (`Option BSTree` each), exactly as the
  C++ struct holds `left` and `right` raw pointers.  Geometric fields (bound,
  statistic, the floating-point distances) are external template parameters in
  the source and are elided, except where a claim depends on them
  (serialization models `parentDistance` as a rational, since the save path
  uses it as an integer-valued counter).
* `buildTree` — `SplitNode`: the recursive build, parametric over the external
  split strategy (`split : Nat → Nat → Option Nat`, `none` = split failure).
  C++ recursion on child ranges is modelled with an explicit fuel argument;
  for a contract-conforming splitter any fuel ≥ count behaves identically to
  the source recursion (children are strictly smaller).
* `findByBeginCount`, `numDescendantNodes`, `descendantNode` — the identity
  lookup and the breadth-first descendant queries.
* a permutation-tracking variant of the build for `oldFromNew`/`newFromOld`.
* the serialization save path with its `parentDistance`-as-counter hack.
* the copy constructor over pointer-annotated trees.
* the distributed coordinator (`MasterTraverse`, `GetTarget`) together with a
  generic Rule model, and the single-process dual-tree traversal.
-/

namespace MlpackTree

/-- The `BinarySpaceTree` node: `begin_`/`count` are the node's half-open range
into the shared dataset; `left`/`right` model the two independently nullable
child pointers of the C++ struct. -/
inductive BSTree : Type where
  | mk (begin_ count : Nat) (left right : Option BSTree) : BSTree

namespace BSTree

/-- `Begin()` accessor. -/
def begin_ : BSTree → Nat
  | mk b _ _ _ => b

/-- `Count()` accessor. -/
def count : BSTree → Nat
  | mk _ c _ _ => c

/-- `Left()` accessor (nullable). -/
def left : BSTree → Option BSTree
  | mk _ _ l _ => l

/-- `Right()` accessor (nullable). -/
def right : BSTree → Option BSTree
  | mk _ _ _ r => r

/-- `End()`: one past the last index of the node's range. -/
def end_ (t : BSTree) : Nat := t.begin_ + t.count

/-- `IsLeaf()`: the source tests only the left pointer (`return !left;`). -/
def isLeaf : BSTree → Bool
  | mk _ _ none _ => true
  | mk _ _ (some _) _ => false

mutual

/-- Number of nodes in the subtree (used as a recursion measure; the source
has the equivalent `TreeSize()`). -/
def size : BSTree → Nat
  | mk _ _ l r => 1 + osize l + osize r

/-- `size` lifted to a nullable child pointer. -/
def osize : Option BSTree → Nat
  | none => 0
  | some t => size t

end

mutual

/-- All nodes of the subtree rooted here (the node itself first, then the
nodes of the left subtree, then of the right). -/
def nodesOf : BSTree → List BSTree
  | mk b c l r => mk b c l r :: (onodesOf l ++ onodesOf r)

/-- `nodesOf` lifted to a nullable child pointer. -/
def onodesOf : Option BSTree → List BSTree
  | none => []
  | some t => nodesOf t

end

mutual

/-- The ranges `(begin, count)` of the leaves of the subtree, in left-to-right
order.  A node is a leaf exactly when its left pointer is null (`IsLeaf()`). -/
def leafRanges : BSTree → List (Nat × Nat)
  | mk b c none _ => [(b, c)]
  | mk _ _ (some l) r => leafRanges l ++ oleafRanges r

/-- `leafRanges` lifted to a nullable child pointer. -/
def oleafRanges : Option BSTree → List (Nat × Nat)
  | none => []
  | some t => leafRanges t

end

end BSTree

open BSTree

/-- `SplitNode(maxLeafSize, splitter)` translated from the source: expand the
bound (elided), stop if `count ≤ maxLeafSize`, otherwise ask the external
split strategy for a split column; on failure remain a leaf, on success build
the left child over `[begin, splitCol)` and the right child over
`[splitCol, begin + count)`.  `split b c = some col` models
`splitter.SplitNode(bound, data, b, c, col)` returning true.  The C++
recursion on strictly smaller child ranges is driven here by an explicit
`fuel` argument; any `fuel ≥ count` reproduces the source behaviour for a
splitter meeting its contract (see `ValidSplitter`). -/
def buildTree (split : Nat → Nat → Option Nat) (mls : Nat) :
    Nat → Nat → Nat → BSTree
  | 0, b, c => .mk b c none none
  | fuel + 1, b, c =>
    if c ≤ mls then .mk b c none none
    else
      match split b c with
      | none => .mk b c none none
      | some col =>
          .mk b c (some (buildTree split mls fuel b (col - b)))
                  (some (buildTree split mls fuel col (b + c - col)))

/-- The external SplitStrategy contract (spec §4.2/§6): on success the split
column properly partitions the range into two nonempty contiguous
sub-ranges. -/
def ValidSplitter (split : Nat → Nat → Option Nat) : Prop :=
  ∀ b c col, split b c = some col → b < col ∧ col < b + c

/-- The midpoint splitter used for the concrete scenarios: split a range of at
least two points at its midpoint. -/
def midSplit (b c : Nat) : Option Nat :=
  if 2 ≤ c then some (b + c / 2) else none

theorem midSplit_valid : ValidSplitter midSplit := by
  intro b c col h
  unfold midSplit at h
  split at h
  · cases h
    constructor
    · omega
    · omega
  · cases h

/-- Scenario A: the tree built over 8 points with `maxLeafSize = 2`
(8 one-dimensional points split at midpoints: 7 nodes, 4 leaves, depth 3). -/
def scenarioTree : BSTree := buildTree midSplit 2 8 0 8

/-- Children of the build come in pairs: either no children or both. -/
def PairedChildren (n : BSTree) : Prop :=
  (n.left = none ∧ n.right = none) ∨
  (∃ l r, n.left = some l ∧ n.right = some r)

/-- The children's ranges contiguously partition the parent's range. -/
def ContigChildren (n : BSTree) : Prop :=
  ∀ l r, n.left = some l → n.right = some r →
    l.begin_ = n.begin_ ∧ l.begin_ + l.count = r.begin_ ∧
    r.begin_ + r.count = n.begin_ + n.count

theorem nodesOf_pair (b c : Nat) (l r : BSTree) :
    nodesOf (.mk b c (some l) (some r)) =
      .mk b c (some l) (some r) :: (nodesOf l ++ nodesOf r) := by
  simp [nodesOf, onodesOf]

theorem nodesOf_leaf (b c : Nat) :
    nodesOf (.mk b c none none) = [.mk b c none none] := by
  simp [nodesOf, onodesOf]

/-- Claim C3: every node of a built tree has zero children or exactly two, and
for every internal node the children's ranges contiguously partition the
parent's range: `left.begin = begin`, `left.end = right.begin`,
`right.end = end`. -/
theorem build_children_paired_contiguous
    (split : Nat → Nat → Option Nat) (mls : Nat)
    (hs : ValidSplitter split) :
    ∀ fuel b c, ∀ n ∈ nodesOf (buildTree split mls fuel b c),
      PairedChildren n ∧ ContigChildren n := by
  intro fuel
  induction fuel with
  | zero =>
      intro b c n hn
      simp [buildTree, nodesOf_leaf] at hn
      subst hn
      refine ⟨Or.inl ⟨rfl, rfl⟩, ?_⟩
      intro l r hl _
      simp [BSTree.left] at hl
  | succ fuel ih =>
      intro b c n hn
      unfold buildTree at hn
      split at hn
      · simp [nodesOf_leaf] at hn
        subst hn
        refine ⟨Or.inl ⟨rfl, rfl⟩, ?_⟩
        intro l r hl _
        simp [BSTree.left] at hl
      · rename_i hcount
        cases hsplit : split b c with
        | none =>
            rw [hsplit] at hn
            simp [nodesOf_leaf] at hn
            subst hn
            refine ⟨Or.inl ⟨rfl, rfl⟩, ?_⟩
            intro l r hl _
            simp [BSTree.left] at hl
        | some col =>
            rw [hsplit] at hn
            rw [nodesOf_pair] at hn
            rcases List.mem_cons.mp hn with h | h
            · subst h
              obtain ⟨h1, h2⟩ := hs b c col hsplit
              refine ⟨Or.inr ⟨_, _, rfl, rfl⟩, ?_⟩
              intro l r hl hr
              simp [BSTree.left] at hl
              simp [BSTree.right] at hr
              subst hl; subst hr
              refine ⟨?_, ?_, ?_⟩
              · cases fuel with
                | zero => simp [buildTree, BSTree.begin_]
                | succ f =>
                    unfold buildTree
                    split
                    · simp [BSTree.begin_]
                    · cases split b (col - b) <;> simp [BSTree.begin_]
              · have hbl : (buildTree split mls fuel b (col - b)).begin_ = b ∧
                    (buildTree split mls fuel b (col - b)).count = col - b := by
                  cases fuel with
                  | zero => simp [buildTree, BSTree.begin_, BSTree.count]
                  | succ f =>
                      unfold buildTree
                      split
                      · simp [BSTree.begin_, BSTree.count]
                      · cases split b (col - b) <;>
                          simp [BSTree.begin_, BSTree.count]
                have hbr : (buildTree split mls fuel col
                      (b + c - col)).begin_ = col := by
                  cases fuel with
                  | zero => simp [buildTree, BSTree.begin_]
                  | succ f =>
                      unfold buildTree
                      split
                      · simp [BSTree.begin_]
                      · cases split col (b + c - col) <;> simp [BSTree.begin_]
                rw [hbl.1, hbl.2, hbr]
                omega
              · have hbr : (buildTree split mls fuel col
                      (b + c - col)).begin_ = col ∧
                    (buildTree split mls fuel col
                      (b + c - col)).count = b + c - col := by
                  cases fuel with
                  | zero => simp [buildTree, BSTree.begin_, BSTree.count]
                  | succ f =>
                      unfold buildTree
                      split
                      · simp [BSTree.begin_, BSTree.count]
                      · cases split col (b + c - col) <;>
                          simp [BSTree.begin_, BSTree.count]
                rw [hbr.1, hbr.2]
                simp [BSTree.begin_, BSTree.count]
                omega
            · rcases List.mem_append.mp h with h2 | h2
              · exact ih b (col - b) n h2
              · exact ih col (b + c - col) n h2

/-- Witness for C3 at the concrete scenario-A build: the root of
`scenarioTree` has paired children whose ranges partition `[0, 8)`. -/
theorem build_children_paired_contiguous_witness :
    PairedChildren scenarioTree ∧ ContigChildren scenarioTree := by
  have h := build_children_paired_contiguous midSplit 2 midSplit_valid
    8 0 8 scenarioTree
  exact h (by simp [scenarioTree, buildTree, midSplit, nodesOf, onodesOf])

/-- A list of ranges `(begin, count)` chains contiguously from `lo` to `hi`:
each range starts where the previous one ended, with no gap or overlap, and
the last one ends at `hi`.  This is the "exact cover of `[lo, hi)` with no
gaps and no overlaps" of the claim, for the in-order leaf list. -/
def contiguous : Nat → Nat → List (Nat × Nat) → Prop
  | lo, hi, [] => lo = hi
  | lo, hi, (b, c) :: rest => b = lo ∧ contiguous (b + c) hi rest

instance : ∀ lo hi l, Decidable (contiguous lo hi l) := by
  intro lo hi l
  induction l generalizing lo with
  | nil => simp [contiguous]; infer_instance
  | cons p rest ih =>
      cases p with
      | mk b c =>
          simp only [contiguous]
          have : Decidable (contiguous (b + c) hi rest) := ih (b + c)
          infer_instance

theorem contiguous_append (lo mid hi : Nat) (l1 l2 : List (Nat × Nat))
    (h1 : contiguous lo mid l1) (h2 : contiguous mid hi l2) :
    contiguous lo hi (l1 ++ l2) := by
  induction l1 generalizing lo with
  | nil => simpa [contiguous] using h1 ▸ h2
  | cons p rest ih =>
      cases p with
      | mk b c =>
          obtain ⟨hb, hrest⟩ := h1
          exact ⟨hb, ih (b + c) hrest⟩

theorem leafRanges_pair (b c : Nat) (l r : BSTree) :
    leafRanges (.mk b c (some l) (some r)) = leafRanges l ++ leafRanges r := by
  simp [leafRanges, oleafRanges]

theorem leafRanges_leaf (b c : Nat) :
    leafRanges (.mk b c none none) = [(b, c)] := rfl

/-- Claim C4: for a build with leaf-size bound `mls` over the range
`[b, b + c)` (the root build is `b = 0`, `c = N`), every leaf node either has
`count ≤ mls` or the split strategy reported failure on that leaf's range, and
the leaf ranges, in order, exactly cover `[b, b + c)` with no gaps or
overlaps. -/
theorem build_leaf_cover
    (split : Nat → Nat → Option Nat) (mls : Nat)
    (hs : ValidSplitter split) :
    ∀ fuel b c, c ≤ fuel →
      (∀ n ∈ nodesOf (buildTree split mls fuel b c), n.isLeaf = true →
        n.count ≤ mls ∨ split n.begin_ n.count = none) ∧
      contiguous b (b + c) (leafRanges (buildTree split mls fuel b c)) := by
  intro fuel
  induction fuel with
  | zero =>
      intro b c hc
      have hc0 : c = 0 := Nat.le_zero.mp hc
      subst hc0
      constructor
      · intro n hn _
        simp [buildTree, nodesOf_leaf] at hn
        subst hn
        exact Or.inl (by simp [BSTree.count])
      · simp [buildTree, leafRanges_leaf, contiguous]
  | succ fuel ih =>
      intro b c hc
      unfold buildTree
      split
      · rename_i hcount
        constructor
        · intro n hn _
          simp [nodesOf_leaf] at hn
          subst hn
          exact Or.inl (by simpa [BSTree.count] using hcount)
        · simp [leafRanges_leaf, contiguous]
      · rename_i hcount
        cases hsplit : split b c with
        | none =>
            constructor
            · intro n hn _
              simp [nodesOf_leaf] at hn
              subst hn
              exact Or.inr (by simpa [BSTree.begin_, BSTree.count] using hsplit)
            · simp [leafRanges_leaf, contiguous]
        | some col =>
            obtain ⟨h1, h2⟩ := hs b c col hsplit
            have hl := ih b (col - b) (by omega)
            have hr := ih col (b + c - col) (by omega)
            constructor
            · intro n hn hleaf
              rw [nodesOf_pair] at hn
              rcases List.mem_cons.mp hn with h | h
              · subst h
                simp [BSTree.isLeaf] at hleaf
              · rcases List.mem_append.mp h with h3 | h3
                · exact hl.1 n h3 hleaf
                · exact hr.1 n h3 hleaf
            · rw [leafRanges_pair]
              have hcl := hl.2
              rw [show b + (col - b) = col by omega] at hcl
              have hcr := hr.2
              rw [show col + (b + c - col) = b + c by omega] at hcr
              exact contiguous_append b col (b + c) _ _ hcl hcr

/-- Witness for C4 at the scenario-A build: every leaf of `scenarioTree` has
count ≤ 2 or a failed split, and the leaves cover `[0, 8)` contiguously. -/
theorem build_leaf_cover_witness :
    (∀ n ∈ nodesOf scenarioTree, n.isLeaf = true →
      n.count ≤ 2 ∨ midSplit n.begin_ n.count = none) ∧
    contiguous 0 8 (leafRanges scenarioTree) := by
  have h := build_leaf_cover midSplit 2 midSplit_valid 8 0 8 (by omega)
  exact h

/-! ## FindByBeginCount (identity lookup) -/

/-- `Begin()` of a nullable node.  On a null pointer the source would have
undefined behaviour (`right->Begin()` with `right == NULL`, possible only for
a node with a left child and no right child, which a built tree never has);
the model returns 0 there. -/
def obegin : Option BSTree → Nat
  | none => 0
  | some t => t.begin_

mutual

/-- `FindByBeginCount(queryBegin, queryCount)` (const overload, lines
312–332): if this node's `(begin, count)` matches, return it; if it is a leaf
(`left == NULL`), return NULL; otherwise recurse into the left child when
`queryBegin < right->Begin()`, else into the right child. -/
def findByBeginCount : BSTree → Nat → Nat → Option BSTree
  | .mk b c l r, qb, qc =>
    if b = qb ∧ c = qc then some (.mk b c l r)
    else if l.isNone then none
    else if qb < obegin r then ofind l qb qc
    else ofind r qb qc

/-- `findByBeginCount` lifted to a nullable child pointer. -/
def ofind : Option BSTree → Nat → Nat → Option BSTree
  | none, _, _ => none
  | some t, qb, qc => findByBeginCount t qb qc

end

/-- The assertion of the const overload (lines 321–322):
`queryBegin >= begin && queryCount <= count`. -/
def constAssertOk (t : BSTree) (qb qc : Nat) : Bool :=
  t.begin_ ≤ qb && qc ≤ t.count

/-- The assertion of the non-const overload (lines 354–355):
`begin >= queryBegin && count <= queryCount` — operands transposed relative to
the const overload and to the documented precondition. -/
def nonConstAssertOk (t : BSTree) (qb qc : Nat) : Bool :=
  qb ≤ t.begin_ && t.count ≤ qc

/-- The claim's range-containment precondition: the query range is nested
within the searched node's range. -/
def RangeNested (t : BSTree) (qb qc : Nat) : Prop :=
  t.begin_ ≤ qb ∧ qb + qc ≤ t.begin_ + t.count

/-- Claim C2 (code bug evaluation): on the scenario-A tree, looking up the
left child's range `(0, 4)` from the root works functionally (it returns
exactly the left child), the claim's range-containment precondition holds, and
the const overload's assertion passes — but the non-const overload's
assertion (`begin >= queryBegin && count <= queryCount`, lines 354–355) is
false: its operands are transposed, so it fires on every proper sub-range
lookup that the function is documented to support. -/
theorem findByBeginCount_assert_transposed :
    findByBeginCount scenarioTree 0 4 = scenarioTree.left ∧
    RangeNested scenarioTree 0 4 ∧
    constAssertOk scenarioTree 0 4 = true ∧
    nonConstAssertOk scenarioTree 0 4 = false :=
  ⟨by rfl, by constructor <;> decide, by rfl, by rfl⟩

theorem buildTree_root_range (split : Nat → Nat → Option Nat) (mls fuel b c : Nat) :
    (buildTree split mls fuel b c).begin_ = b ∧
    (buildTree split mls fuel b c).count = c := by
  cases fuel with
  | zero => simp [buildTree, BSTree.begin_, BSTree.count]
  | succ f =>
      unfold buildTree
      split
      · simp [BSTree.begin_, BSTree.count]
      · cases split b c <;> simp [BSTree.begin_, BSTree.count]

/-- Every node of a built subtree has a nonempty range nested in the
subtree's range. -/
theorem build_nodes_nested (split : Nat → Nat → Option Nat) (mls : Nat)
    (hs : ValidSplitter split) :
    ∀ fuel b c, c ≤ fuel → 1 ≤ c →
      ∀ n ∈ nodesOf (buildTree split mls fuel b c),
        b ≤ n.begin_ ∧ n.begin_ + n.count ≤ b + c ∧ 1 ≤ n.count := by
  intro fuel
  induction fuel with
  | zero => intro b c hc hc1; omega
  | succ fuel ih =>
      intro b c hc hc1 n hn
      unfold buildTree at hn
      split at hn
      · simp [nodesOf_leaf] at hn
        subst hn
        simp [BSTree.begin_, BSTree.count]
        omega
      · cases hsplit : split b c with
        | none =>
            rw [hsplit] at hn
            simp [nodesOf_leaf] at hn
            subst hn
            simp [BSTree.begin_, BSTree.count]
            omega
        | some col =>
            rw [hsplit] at hn
            rw [nodesOf_pair] at hn
            obtain ⟨h1, h2⟩ := hs b c col hsplit
            rcases List.mem_cons.mp hn with h | h
            · subst h
              simp [BSTree.begin_, BSTree.count]
              omega
            · rcases List.mem_append.mp h with h3 | h3
              · have := ih b (col - b) (by omega) (by omega) n h3
                omega
              · have := ih col (b + c - col) (by omega) (by omega) n h3
                omega

/-- Functional correctness of the identity lookup on built trees (the main
clause of claim C2): for every node `n` of the tree,
`findByBeginCount(n.begin, n.count)` from the root returns exactly `n`. -/
theorem findByBeginCount_finds (split : Nat → Nat → Option Nat) (mls : Nat)
    (hs : ValidSplitter split) :
    ∀ fuel b c, c ≤ fuel → 1 ≤ c →
      ∀ n ∈ nodesOf (buildTree split mls fuel b c),
        findByBeginCount (buildTree split mls fuel b c) n.begin_ n.count =
          some n := by
  intro fuel
  induction fuel with
  | zero => intro b c hc hc1; omega
  | succ fuel ih =>
      intro b c hc hc1 n hn
      by_cases hmls : c ≤ mls
      · rw [show buildTree split mls (fuel + 1) b c = .mk b c none none from by
          simp only [buildTree]; rw [if_pos hmls]] at hn ⊢
        simp [nodesOf_leaf] at hn
        subst hn
        simp [findByBeginCount, BSTree.begin_, BSTree.count]
      · cases hsplit : split b c with
        | none =>
            rw [show buildTree split mls (fuel + 1) b c = .mk b c none none from by
              simp only [buildTree]; rw [if_neg hmls, hsplit]] at hn ⊢
            simp [nodesOf_leaf] at hn
            subst hn
            simp [findByBeginCount, BSTree.begin_, BSTree.count]
        | some col =>
            rw [show buildTree split mls (fuel + 1) b c =
                .mk b c (some (buildTree split mls fuel b (col - b)))
                  (some (buildTree split mls fuel col (b + c - col))) from by
              simp only [buildTree]; rw [if_neg hmls, hsplit]] at hn ⊢
            rw [nodesOf_pair] at hn
            obtain ⟨h1, h2⟩ := hs b c col hsplit
            have hLrange := buildTree_root_range split mls fuel b (col - b)
            have hRrange := buildTree_root_range split mls fuel col
              (b + c - col)
            rcases List.mem_cons.mp hn with h | h
            · subst h
              simp [findByBeginCount, BSTree.begin_, BSTree.count]
            · rcases List.mem_append.mp h with h3 | h3
              · have hb := build_nodes_nested split mls hs fuel b (col - b)
                  (by omega) (by omega) n h3
                rw [show b + (col - b) = col by omega] at hb
                simp only [findByBeginCount]
                rw [if_neg (by
                  intro hcon
                  omega)]
                rw [if_neg (by simp)]
                rw [if_pos (by
                  simp only [obegin, hRrange.1]
                  omega)]
                simp only [ofind]
                exact ih b (col - b) (by omega) (by omega) n h3
              · have hb := build_nodes_nested split mls hs fuel col
                  (b + c - col) (by omega) (by omega) n h3
                rw [show col + (b + c - col) = b + c by omega] at hb
                simp only [findByBeginCount]
                rw [if_neg (by
                  intro hcon
                  omega)]
                rw [if_neg (by simp)]
                rw [if_neg (by
                  simp only [obegin, hRrange.1]
                  omega)]
                simp only [ofind]
                exact ih col (b + c - col) (by omega) (by omega) n h3

/-! ## Descendant-node queries (breadth-first) -/

mutual

/-- `NumDescendantNodes()` (lines 536–554).  The source's four-way
null-pointer case split (`2 + L + R` / `1 + L` / `1 + R` / `0`) is exactly
the sum, over the non-null children, of one plus that child's count. -/
def numDescendantNodes : BSTree → Nat
  | .mk _ _ l r => ndnOpt l + ndnOpt r

/-- One branch of `NumDescendantNodes`: a null pointer contributes 0, a child
contributes itself plus its own descendant count. -/
def ndnOpt : Option BSTree → Nat
  | none => 0
  | some t => 1 + numDescendantNodes t

end

/-- A nullable child pointer as a zero- or one-element queue segment. -/
def optChild : Option BSTree → List BSTree
  | none => []
  | some t => [t]

/-- The children pushed onto the breadth-first queue (left first, then
right, skipping null pointers) — as in `DescendantNode` lines 573–577 and
588–591. -/
def childrenList : BSTree → List BSTree
  | .mk _ _ l r => optChild l ++ optChild r

/-- Total size of the trees in a queue; an upper bound on the number of loop
iterations of the breadth-first walk (each iteration pops one node and pushes
its children). -/
def queueSize (q : List BSTree) : Nat := (q.map size).sum

/-- The breadth-first walk of `DescendantNode` (lines 580–593): pop the front
node, emit it, push its children.  The C++ `while (!queue.empty())` loop is
driven by fuel; any fuel ≥ `queueSize q` runs the loop to completion
(`bfsAux_fuel_sufficient`). -/
def bfsAux : Nat → List BSTree → List BSTree
  | 0, _ => []
  | _ + 1, [] => []
  | fuel + 1, t :: rest => t :: bfsAux fuel (rest ++ childrenList t)

/-- `DescendantNode(index)` (lines 555–598): breadth-first walk over the
proper descendants; `none` models the `std::invalid_argument` throw when the
walk ends before reaching `index`. -/
def descendantNode (t : BSTree) (index : Nat) : Option BSTree :=
  (bfsAux (queueSize (childrenList t)) (childrenList t))[index]?

theorem queueSize_cons (t : BSTree) (rest : List BSTree) :
    queueSize (t :: rest) = size t + queueSize rest := by
  simp [queueSize]

theorem queueSize_append (q1 q2 : List BSTree) :
    queueSize (q1 ++ q2) = queueSize q1 + queueSize q2 := by
  simp [queueSize]

theorem size_children (t : BSTree) :
    size t = 1 + queueSize (childrenList t) := by
  cases t with
  | mk b c l r =>
      cases l <;> cases r <;>
        simp [size, osize, childrenList, optChild, queueSize] <;> omega

theorem bfsAux_fuel_sufficient :
    ∀ f1 f2 q, queueSize q ≤ f1 → queueSize q ≤ f2 →
      bfsAux f1 q = bfsAux f2 q := by
  intro f1
  induction f1 with
  | zero =>
      intro f2 q h1 _
      cases q with
      | nil => cases f2 <;> simp [bfsAux]
      | cons t rest =>
          rw [queueSize_cons] at h1
          have := size_children t
          omega
  | succ f1 ih =>
      intro f2 q h1 h2
      cases q with
      | nil => cases f2 <;> simp [bfsAux]
      | cons t rest =>
          cases f2 with
          | zero =>
              rw [queueSize_cons] at h2
              have := size_children t
              omega
          | succ f2 =>
              simp only [bfsAux]
              have hq : queueSize (rest ++ childrenList t) + 1 =
                  queueSize (t :: rest) := by
                rw [queueSize_append, queueSize_cons]
                have := size_children t
                omega
              refine congrArg _ (ih f2 _ ?_ ?_) <;> omega

theorem sum_map_one_add (l : List BSTree) (f : BSTree → Nat) :
    (l.map (fun c => 1 + f c)).sum = l.length + (l.map f).sum := by
  induction l with
  | nil => simp
  | cons t rest ih => simp [ih]; omega

/-- `NumDescendantNodes` of a node counts exactly the nodes below it,
child-by-child. -/
theorem ndn_children (t : BSTree) :
    numDescendantNodes t =
      ((childrenList t).map (fun c => 1 + numDescendantNodes c)).sum := by
  cases t with
  | mk b c l r =>
      cases l <;> cases r <;>
        simp [numDescendantNodes, ndnOpt, childrenList, optChild]

theorem bfsAux_length :
    ∀ fuel q, queueSize q ≤ fuel →
      (bfsAux fuel q).length =
        (q.map (fun c => 1 + numDescendantNodes c)).sum := by
  intro fuel
  induction fuel with
  | zero =>
      intro q h
      cases q with
      | nil => simp [bfsAux]
      | cons t rest =>
          rw [queueSize_cons] at h
          have := size_children t
          omega
  | succ fuel ih =>
      intro q h
      cases q with
      | nil => simp [bfsAux]
      | cons t rest =>
          simp only [bfsAux, List.length_cons]
          have hq : queueSize (rest ++ childrenList t) + 1 =
              queueSize (t :: rest) := by
            rw [queueSize_append, queueSize_cons]
            have := size_children t
            omega
          rw [ih (rest ++ childrenList t) (by
            have h1 := queueSize_cons t rest
            have h2 := size_children t
            have h3 := queueSize_append rest (childrenList t)
            omega)]
          simp only [List.map_cons, List.sum_cons, List.map_append,
            List.sum_append]
          rw [← ndn_children t]
          omega

/-- Claim C8: `DescendantNode(index)` walks the proper descendants
breadth-first and fails (throws `std::invalid_argument`, modelled as `none`)
exactly when `index ≥ NumDescendantNodes()`; in particular on the scenario-A
tree (root with 6 descendant nodes) index 6 fails and index 5 succeeds. -/
theorem descendantNode_index_check :
    (∀ t index, descendantNode t index = none ↔ numDescendantNodes t ≤ index) ∧
    numDescendantNodes scenarioTree = 6 ∧
    (descendantNode scenarioTree 6).isNone = true ∧
    (descendantNode scenarioTree 5).isSome = true := by
  refine ⟨?_, by decide, by rfl, by rfl⟩
  intro t index
  have hlen : (bfsAux (queueSize (childrenList t)) (childrenList t)).length =
      numDescendantNodes t := by
    rw [bfsAux_length _ _ (Nat.le_refl _), ← ndn_children]
  unfold descendantNode
  rw [List.getElem?_eq_none_iff, hlen]

/-! ## Permutation-tracking build (`oldFromNew` / `newFromOld`) -/

/-- The external split strategy in its permutation-tracking form
(`splitter.SplitNode(bound, data, begin, count, splitCol, oldFromNew)`):
given a range and the current `oldFromNew` list it returns the split column
(`none` on failure) together with the updated `oldFromNew`.  Its contract is
that the update permutes the list (`ReorderIsPerm`). -/
structure PermSplitter where
  attempt : Nat → Nat → List Nat → Option Nat × List Nat

/-- The splitter's documented contract: updating `oldFromNew` is a
permutation (the strategy only reorders entries, as it reorders the data). -/
def ReorderIsPerm (sp : PermSplitter) : Prop :=
  ∀ b c l, ((sp.attempt b c l).2).Perm l

/-- `SplitNode(oldFromNew, maxLeafSize, splitter)` (lines 685–736): as
`buildTree`, threading `oldFromNew` through the splitter call and both child
builds (left first, then right, as the child constructors run). -/
def buildTreeP (sp : PermSplitter) (mls : Nat) :
    Nat → Nat → Nat → List Nat → BSTree × List Nat
  | 0, b, c, ofn => (.mk b c none none, ofn)
  | fuel + 1, b, c, ofn =>
    if c ≤ mls then (.mk b c none none, ofn)
    else
      match sp.attempt b c ofn with
      | (none, ofn1) => (.mk b c none none, ofn1)
      | (some col, ofn1) =>
          let lres := buildTreeP sp mls fuel b (col - b) ofn1
          let rres := buildTreeP sp mls fuel col (b + c - col) lres.2
          (.mk b c (some lres.1) (some rres.1), rres.2)

/-- `newFromOld` computed by the constructor epilogue (lines 106–109):
resize to `N` (value-initialized to 0) and set
`newFromOld[oldFromNew[i]] = i` for each `i < N`. -/
def newFromOldOf (N : Nat) (ofn : List Nat) : List Nat :=
  (List.range N).foldl (fun a i => a.set (ofn.getD i 0) i) (List.replicate N 0)

/-- The permutation-tracking root constructor (lines 76–110): initialize
`oldFromNew` as the identity over `[0, N)`, build (splitting updates the map
in place), then derive `newFromOld` by inversion. -/
def buildWithPerms (sp : PermSplitter) (mls N fuel : Nat) :
    BSTree × List Nat × List Nat :=
  let res := buildTreeP sp mls fuel 0 N (List.range N)
  (res.1, res.2, newFromOldOf N res.2)

theorem buildTreeP_perm (sp : PermSplitter) (mls : Nat)
    (hp : ReorderIsPerm sp) :
    ∀ fuel b c ofn, ((buildTreeP sp mls fuel b c ofn).2).Perm ofn := by
  intro fuel
  induction fuel with
  | zero => intro b c ofn; simp [buildTreeP]
  | succ fuel ih =>
      intro b c ofn
      unfold buildTreeP
      split
      · simp
      · cases hsp : sp.attempt b c ofn with
        | mk ocol ofn1 =>
            have h1 : ofn1.Perm ofn := by
              have := hp b c ofn
              rw [hsp] at this
              exact this
            cases ocol with
            | none => simpa using h1
            | some col =>
                simp only
                exact ((ih _ _ _).trans (ih _ _ _)).trans h1

theorem list_getD_set_ne (l : List Nat) (i j x : Nat) (h : i ≠ j) :
    (l.set i x).getD j 0 = l.getD j 0 := by
  simp [List.getD, List.getElem?_set_ne h]

theorem list_getD_set_self (l : List Nat) (i x : Nat) (h : i < l.length) :
    (l.set i x).getD i 0 = x := by
  simp [List.getD, List.getElem?_set_self, h]

/-- After `newFromOldOf`, every slot `j < N` holds the unique index at which
`j` occurs in `ofn` (provided `ofn` is a permutation of `[0, N)`). -/
theorem newFromOldOf_getD (N : Nat) (ofn : List Nat)
    (hperm : ofn.Perm (List.range N)) :
    ∀ i, i < N → (newFromOldOf N ofn).getD (ofn.getD i 0) 0 = i := by
  have hlen : ofn.length = N := by
    have := hperm.length_eq
    simpa using this
  have hnodup : ofn.Nodup := hperm.nodup_iff.mpr (List.nodup_range N)
  have hmemN : ∀ x, x ∈ ofn → x < N := by
    intro x hx
    have := hperm.mem_iff.mp hx
    simpa using this
  -- Generalize over the prefix length of the fold.
  have main : ∀ k, k ≤ N →
      ((List.range k).foldl (fun a i => a.set (ofn.getD i 0) i)
          (List.replicate N 0)).length = N ∧
      ∀ i, i < k →
        ((List.range k).foldl (fun a i => a.set (ofn.getD i 0) i)
            (List.replicate N 0)).getD (ofn.getD i 0) 0 = i := by
    intro k
    induction k with
    | zero => intro _; simp
    | succ k ih =>
        intro hk
        obtain ⟨ihlen, ihget⟩ := ih (by omega)
        rw [List.range_succ, List.foldl_append, List.foldl_cons,
          List.foldl_nil]
        constructor
        · rw [List.length_set, ihlen]
        · intro i hi
          have hofnk : ofn.getD k 0 < N := by
            have hkl : k < ofn.length := by omega
            have : ofn.getD k 0 ∈ ofn := by
              rw [List.getD_eq_getElem?_getD, List.getElem?_eq_getElem hkl]
              exact List.getElem_mem hkl
            exact hmemN _ this
          rcases Nat.lt_or_ge i k with hik | hik
          · -- earlier slot, untouched by this set
            have hne : ofn.getD k 0 ≠ ofn.getD i 0 := by
              have hkl : k < ofn.length := by omega
              have hil : i < ofn.length := by omega
              rw [List.getD_eq_getElem?_getD, List.getElem?_eq_getElem hkl,
                List.getD_eq_getElem?_getD, List.getElem?_eq_getElem hil]
              simp only [Option.getD_some]
              intro he
              have := (List.Nodup.getElem_inj_iff hnodup).mp he
              omega
            rw [list_getD_set_ne _ _ _ _ hne]
            exact ihget i hik
          · -- i = k: this set writes slot ofn[k] := k
            have hik2 : i = k := by omega
            subst hik2
            exact list_getD_set_self _ _ _ (by rw [ihlen]; exact hofnk)
  exact fun i hi => (main N (Nat.le_refl N)).2 i hi

/-- Claim C9: for a permutation-tracking build over `N` points with a
contract-conforming splitter, `oldFromNew` and `newFromOld` are exact inverse
permutations of `[0, N)`: `newFromOld[oldFromNew[i]] = i` and
`oldFromNew[newFromOld[i]] = i` for every `i < N`. -/
theorem build_perm_inverse (sp : PermSplitter) (mls N fuel : Nat)
    (hp : ReorderIsPerm sp) :
    ∀ i, i < N →
      ((buildWithPerms sp mls N fuel).2.2).getD
        (((buildWithPerms sp mls N fuel).2.1).getD i 0) 0 = i ∧
      ((buildWithPerms sp mls N fuel).2.1).getD
        (((buildWithPerms sp mls N fuel).2.2).getD i 0) 0 = i := by
  intro i hi
  set ofn := (buildTreeP sp mls fuel 0 N (List.range N)).2 with hofn
  have hperm : ofn.Perm (List.range N) := by
    have := buildTreeP_perm sp mls hp fuel 0 N (List.range N)
    simpa [hofn] using this
  have hfwd := newFromOldOf_getD N ofn hperm
  have hlen : ofn.length = N := by simpa using hperm.length_eq
  constructor
  · simpa [buildWithPerms, hofn] using hfwd i hi
  · -- i occurs in ofn at some index j; apply the forward identity at j.
    have hmem : i ∈ ofn := hperm.mem_iff.mpr (List.mem_range.mpr hi)
    obtain ⟨j, hj, hji⟩ := List.getElem_of_mem hmem
    have hgetj : ofn.getD j 0 = i := by
      rw [List.getD_eq_getElem?_getD, List.getElem?_eq_getElem hj, hji,
        Option.getD_some]
    have := hfwd j (by omega)
    rw [hgetj] at this
    simp only [buildWithPerms, ← hofn]
    rw [this, hgetj]

/-- A concrete permutation splitter for the witness: midpoint splits, identity
reorder. -/
def midPermSplitter : PermSplitter where
  attempt b c l := (midSplit b c, l)

/-- Witness for C9: the 4-point build with `maxLeafSize 1` at index 2. -/
theorem build_perm_inverse_witness :
    2 < 4 ∧
    ((buildWithPerms midPermSplitter 1 4 4).2.2).getD
      (((buildWithPerms midPermSplitter 1 4 4).2.1).getD 2 0) 0 = 2 ∧
    ((buildWithPerms midPermSplitter 1 4 4).2.1).getD
      (((buildWithPerms midPermSplitter 1 4 4).2.2).getD 2 0) 0 = 2 :=
  ⟨by omega,
   build_perm_inverse midPermSplitter 1 4 4
     (fun b c l => List.Perm.refl l) 2 (by omega)⟩

/-! ## Distributed traversal: task-to-worker routing (`GetTarget`) -/

/-- The per-level 2-bit branch code assembled by `GetTarget` (lines 206–211):
`currentIndex = 0`, `+2` if the query node is its parent's right child, `+1`
if the reference node is (L = 0, R = 1; the query bit is the more
significant). -/
def branchCode (qd rd : Bool) : Nat :=
  (if qd then 2 else 0) + (if rd then 1 else 0)

/-- The while loop of `GetTarget` (lines 204–219): walk both parent chains
from the node pair upward — i.e. consume the two root-first left/right paths
in reverse — stopping as soon as either chain reaches the root, and
accumulate `index += currentIndex << (level * 2)` with `level` counting from
the node. -/
def getTargetAux : List Bool → List Bool → Nat → Nat → Nat
  | qd :: qrest, rd :: rrest, level, index =>
      getTargetAux qrest rrest (level + 1) (index + branchCode qd rd * 4 ^ level)
  | _, _, _, index => index

/-- `GetTarget(queryNode, referenceNode)` (lines 181–222) for a pair reached
along root-first paths `qpath` (query tree) and `rpath` (reference tree):
the parent-chain walk, then `return index + 1` (rank 0 is the master). -/
def getTarget (qpath rpath : List Bool) : Nat :=
  getTargetAux qpath.reverse rpath.reverse 0 0 + 1

/-- Little-endian base-4 value of a code list (deepest level first). -/
def pathValLE : List Nat → Nat
  | [] => 0
  | c :: rest => c + 4 * pathValLE rest

/-- Big-endian (recursion-order, most-significant-first) base-4 value of a
code list — the encoding stated by the spec. -/
def pathValBE (codes : List Nat) : Nat :=
  codes.foldl (fun a c => 4 * a + c) 0

theorem getTargetAux_eq (qs rs : List Bool) :
    ∀ level index, getTargetAux qs rs level index =
      index + 4 ^ level * pathValLE (List.zipWith branchCode qs rs) := by
  induction qs generalizing rs with
  | nil => intro level index; cases rs <;> simp [getTargetAux, pathValLE]
  | cons qd qrest ih =>
      intro level index
      cases rs with
      | nil => simp [getTargetAux, pathValLE]
      | cons rd rrest =>
          simp only [getTargetAux, List.zipWith_cons_cons, pathValLE, ih]
          ring

theorem pathValLE_append_single (l : List Nat) (c : Nat) :
    pathValLE (l ++ [c]) = pathValLE l + c * 4 ^ l.length := by
  induction l with
  | nil => simp [pathValLE]
  | cons x rest ih => simp [pathValLE, ih]; ring

theorem pathValBE_acc (l : List Nat) :
    ∀ a, l.foldl (fun x c => 4 * x + c) a = a * 4 ^ l.length + pathValLE l.reverse := by
  induction l with
  | nil => intro a; simp [pathValLE]
  | cons c rest ih =>
      intro a
      simp only [List.foldl_cons, ih, List.reverse_cons,
        pathValLE_append_single, List.length_reverse, List.length_cons]
      ring

/-- Claim C5: for a pair reached by genuine four-way dual recursions (the two
root-first paths have equal length), the computed target worker rank is one
plus the base-4, most-significant-first value of the per-level branch codes
(left/left = 0, left/right = 1, right/left = 2, right/right = 3). -/
theorem getTarget_big_endian (qpath rpath : List Bool)
    (h : qpath.length = rpath.length) :
    getTarget qpath rpath =
      pathValBE (List.zipWith branchCode qpath rpath) + 1 := by
  unfold getTarget pathValBE
  rw [getTargetAux_eq, ← List.reverse_zipWith, pathValBE_acc]
  · simp
  · exact h

/-- Witness for C5, scenario D: with a single dispatch level, the pair
reached via branch right/left (code 2) routes to rank `2 + 1 = 3`. -/
theorem getTarget_big_endian_witness :
    ([true] : List Bool).length = ([false] : List Bool).length ∧
    getTarget [true] [false] = 3 := by
  refine ⟨rfl, ?_⟩
  rw [getTarget_big_endian [true] [false] rfl]
  rfl

/-! ## Distributed traversal: dispatch depth -/

/-- The coordinator's local-recursion test (line 113):
`level < std::ceil(std::log2(world.size() - 1)) / 2` with
`W = world.size() - 1` workers.  `std::ceil(std::log2 W)` is the
integer-valued double `⌈log₂ W⌉` (`Nat.clog 2 W`; the model takes the exact
real-valued semantics of the expression), and comparing the integer `level`
against `⌈log₂ W⌉ / 2` is exactly `2 * level < ⌈log₂ W⌉`. -/
def localRecurse (W level : Nat) : Bool := 2 * level < Nat.clog 2 W

/-- The dispatch depth: the least level at which `localRecurse` fails, i.e.
`⌈⌈log₂ W⌉ / 2⌉`. -/
def dispatchDepth (W : Nat) : Nat := (Nat.clog 2 W + 1) / 2

theorem localRecurse_iff (W level : Nat) :
    localRecurse W level = true ↔ level < dispatchDepth W := by
  unfold localRecurse dispatchDepth
  simp only [decide_eq_true_eq]
  omega

/-- Counterexample to claim C6 as stated: with `W = 2` workers (`≥ 1`), the
dispatch depth is 1, and `4 ^ 1 = 4 > 2`: the number of distinct four-way
branch sequences exceeds the worker count. -/
theorem dispatchDepth_two_exceeds :
    1 ≤ 2 ∧ dispatchDepth 2 = 1 ∧ ¬ (4 ^ dispatchDepth 2 ≤ 2) := by
  have hc : Nat.clog 2 2 = 1 := Nat.clog_eq_one (by omega) (by omega)
  have hd : dispatchDepth 2 = 1 := by unfold dispatchDepth; rw [hc]
  exact ⟨by omega, hd, by rw [hd]; omega⟩

/-- Claim C6, amended: for `W ≥ 1` workers, `4 ^ dispatchDepth W ≤ W` holds
exactly when `W` is a power of four; for every other worker count the number
of four-way branch sequences at the dispatch depth exceeds `W`. -/
theorem dispatchDepth_le_iff_pow4 (W : Nat) (hW : 1 ≤ W) :
    4 ^ dispatchDepth W ≤ W ↔ ∃ k, W = 4 ^ k := by
  have h42 : (4 : Nat) = 2 ^ 2 := by norm_num
  constructor
  · intro h
    set c := Nat.clog 2 W with hc
    have hd : dispatchDepth W = (c + 1) / 2 := rfl
    have hcle : c ≤ 2 * ((c + 1) / 2) := by omega
    have hWle : W ≤ 2 ^ c := Nat.le_pow_clog (by omega) W
    have h4d : (4 : Nat) ^ dispatchDepth W = 2 ^ (2 * ((c + 1) / 2)) := by
      rw [hd, h42, ← Nat.pow_mul, Nat.mul_comm]
    have hchain : 2 ^ c ≤ 2 ^ (2 * ((c + 1) / 2)) :=
      Nat.pow_le_pow_right (by omega) hcle
    -- 4^d ≤ W ≤ 2^c ≤ 4^d forces equality throughout.
    have heq : W = 2 ^ (2 * ((c + 1) / 2)) := by omega
    refine ⟨(c + 1) / 2, ?_⟩
    rw [heq, h42, ← Nat.pow_mul, Nat.mul_comm]
  · rintro ⟨k, rfl⟩
    have hck : Nat.clog 2 (4 ^ k) = 2 * k := by
      rw [h42, ← Nat.pow_mul, Nat.clog_pow 2 (2 * k) (by omega)]
    have hd : dispatchDepth (4 ^ k) = k := by
      unfold dispatchDepth
      rw [hck]
      omega
    rw [hd]

/-- Witness for the amended C6 at `W = 4`: four workers accommodate all four
depth-1 branch sequences. -/
theorem dispatchDepth_le_iff_pow4_witness :
    1 ≤ 4 ∧ 4 ^ dispatchDepth 4 ≤ 4 :=
  ⟨by omega, (dispatchDepth_le_iff_pow4 4 (by omega)).mpr ⟨1, by norm_num⟩⟩

/-! ## Serialization with the depth-limit hack

The save path (lines 775–861) persists, per node, the scalar fields (with
`parentDistance` still holding its true value), then temporarily overwrites
`parentDistance` with a remaining-levels counter — `maxDepth - 1` at the
root, `parent->ParentDistance() - 1` below — hides the children when the
counter is within `1e-10` of zero, serializes the (possibly hidden)
children, restores them, and restores `parentDistance`.  `parentDistance` is
a `double`; the counter values are exact small integers, modelled with `ℚ`.
-/

/-- A tree node carrying its `parentDistance` (the field abused as the
remaining-levels counter during a depth-limited save). -/
inductive STree : Type where
  | mk (begin_ count : Nat) (pd : ℚ) (left right : Option STree) : STree

mutual

/-- Node count of an `STree`. -/
def ssize : STree → Nat
  | .mk _ _ _ l r => 1 + ossize l + ossize r

/-- `ssize` lifted to a nullable child pointer. -/
def ossize : Option STree → Nat
  | none => 0
  | some t => ssize t

end

/-- Structural induction for the nested inductive `STree`. -/
theorem stree_induction (P : STree → Prop)
    (h : ∀ b c pd l r, (∀ u, l = some u → P u) → (∀ u, r = some u → P u) →
      P (.mk b c pd l r)) : ∀ t, P t := by
  have main : ∀ n t, ssize t ≤ n → P t := by
    intro n
    induction n with
    | zero =>
        intro t ht
        cases t with
        | mk b c pd l r => simp [ssize] at ht
    | succ n ih =>
        intro t ht
        cases t with
        | mk b c pd l r =>
            apply h
            · intro u hu
              apply ih
              subst hu
              simp only [ssize, ossize] at ht ⊢
              omega
            · intro u hu
              apply ih
              subst hu
              simp only [ssize, ossize] at ht ⊢
              omega
  intro t
  exact main (ssize t) t (Nat.le_refl _)

/-- The persisted form of a node: the scalar fields in serialization order
(bound and statistic are external and elided) and the two optional persisted
children.  The parent pointer is never persisted. -/
inductive SForm : Type where
  | mk (begin_ count : Nat) (pd : ℚ) (left right : Option SForm) : SForm

mutual

/-- Node count of a persisted form. -/
def sformCount : SForm → Nat
  | .mk _ _ _ l r => 1 + osformCount l + osformCount r

/-- `sformCount` lifted to an optional child. -/
def osformCount : Option SForm → Nat
  | none => 0
  | some f => sformCount f

end

/-- The floating-point tolerance of line 827 (`1e-10`). -/
def pdTol : ℚ := 1 / 10 ^ 10

mutual

/-- The saving branch of `Serialize(ar, version, maxDepth)` (lines 783–848):
persist the fields (`parentDistance` with its true value — the overwrite
happens after the field writes), compute this node's counter (`maxDepth - 1`
at the root, parent's counter minus one below, passed here as `pc`), hide the
children when `|counter| < 1e-10`, recurse otherwise, and restore both the
children and `parentDistance` on the live tree.  Returns (persisted form,
live tree after the save). -/
def serializeSave (maxDepth : Nat) (pc : Option ℚ) : STree → SForm × STree
  | .mk b c pd l r =>
    let counter : ℚ := match pc with
      | none => (maxDepth : ℚ) - 1
      | some p => p - 1
    if |counter| < pdTol then
      (.mk b c pd none none, .mk b c pd l r)
    else
      (.mk b c pd (oserializeSave maxDepth (some counter) l).1
                  (oserializeSave maxDepth (some counter) r).1,
       .mk b c pd (oserializeSave maxDepth (some counter) l).2
                  (oserializeSave maxDepth (some counter) r).2)

def oserializeSave (maxDepth : Nat) (pc : Option ℚ) :
    Option STree → Option SForm × Option STree
  | none => (none, none)
  | some t =>
      (some (serializeSave maxDepth pc t).1, some (serializeSave maxDepth pc t).2)

end

mutual

/-- Integer-counter form of the depth-limited save's persisted output: a node
entered with counter source `m` hides its children iff `m - 1 = 0`, otherwise
recurses with `m - 1`.  (Negative counters never hit zero again: `maxDepth =
0` persists the whole tree.) -/
def ztrunc : ℤ → STree → SForm
  | m, .mk b c pd l r =>
    if m - 1 = 0 then .mk b c pd none none
    else .mk b c pd (oztrunc (m - 1) l) (oztrunc (m - 1) r)

/-- `ztrunc` lifted to a nullable child pointer. -/
def oztrunc : ℤ → Option STree → Option SForm
  | _, none => none
  | m, some t => some (ztrunc m t)

end

mutual

/-- Persisted form stated from the spec's words: a depth budget `b ≥ 1` keeps
the nodes at depth `< b` and omits all children below the budget. -/
def truncateDepth : Nat → STree → SForm
  | b, .mk bg c pd l r =>
    if b ≤ 1 then .mk bg c pd none none
    else .mk bg c pd (otruncateDepth (b - 1) l) (otruncateDepth (b - 1) r)

/-- `truncateDepth` lifted to a nullable child pointer. -/
def otruncateDepth : Nat → Option STree → Option SForm
  | _, none => none
  | b, some t => some (truncateDepth b t)

end

/-- An integer-valued rational is within the `1e-10` tolerance of zero iff it
is zero. -/
theorem int_abs_lt_tol (k : ℤ) : |((k : ℚ))| < pdTol ↔ k = 0 := by
  constructor
  · intro h
    by_contra hk
    have h1 : (1 : ℤ) ≤ |k| := Int.one_le_abs (by omega)
    have h2 : (1 : ℚ) ≤ |(k : ℚ)| := by
      rw [← Int.cast_abs]
      exact_mod_cast h1
    have : pdTol < 1 := by norm_num [pdTol]
    linarith
  · intro h
    subst h
    norm_num [pdTol]

theorem serializeSave_int (mD : Nat) :
    ∀ t (m : ℤ), serializeSave mD (some ((m : ℚ))) t = (ztrunc m t, t) := by
  intro t
  induction t using stree_induction with
  | h b c pd l r ihl ihr =>
      intro m
      have hcast : ((m : ℚ)) - 1 = (((m - 1 : ℤ)) : ℚ) := by push_cast; ring
      have hchild : oserializeSave mD (some ((m : ℚ) - 1)) l =
          (oztrunc (m - 1) l, l) ∧
          oserializeSave mD (some ((m : ℚ) - 1)) r =
          (oztrunc (m - 1) r, r) := by
        constructor
        · cases l with
          | none => simp [oserializeSave, oztrunc]
          | some u =>
              simp only [oserializeSave, oztrunc]
              rw [hcast, ihl u rfl (m - 1)]
        · cases r with
          | none => simp [oserializeSave, oztrunc]
          | some u =>
              simp only [oserializeSave, oztrunc]
              rw [hcast, ihr u rfl (m - 1)]
      simp only [serializeSave, ztrunc]
      rw [show ((m : ℚ)) - 1 = (((m - 1 : ℤ)) : ℚ) from hcast] at hchild ⊢
      by_cases hz : m - 1 = 0
      · rw [if_pos ((int_abs_lt_tol (m - 1)).mpr hz), if_pos hz]
      · rw [if_neg (fun hcon => hz ((int_abs_lt_tol (m - 1)).mp hcon)),
          if_neg hz, hchild.1, hchild.2]

theorem serializeSave_root (mD : Nat) (t : STree) :
    serializeSave mD none t = (ztrunc (mD : ℤ) t, t) := by
  cases t with
  | mk b c pd l r =>
      have hcast : ((mD : ℚ)) - 1 = ((((mD : ℤ) - 1 : ℤ)) : ℚ) := by
        push_cast; ring
      have hchild : ∀ o : Option STree,
          oserializeSave mD (some ((mD : ℚ) - 1)) o =
            (oztrunc ((mD : ℤ) - 1) o, o) := by
        intro o
        cases o with
        | none => simp [oserializeSave, oztrunc]
        | some u =>
            simp only [oserializeSave, oztrunc]
            rw [hcast, serializeSave_int mD u ((mD : ℤ) - 1)]
      simp only [serializeSave, ztrunc]
      rw [show ((mD : ℚ)) - 1 = ((((mD : ℤ) - 1 : ℤ)) : ℚ) from hcast] at hchild ⊢
      by_cases hz : (mD : ℤ) - 1 = 0
      · rw [if_pos ((int_abs_lt_tol _).mpr hz), if_pos hz]
      · rw [if_neg (fun hcon => hz ((int_abs_lt_tol _).mp hcon)), if_neg hz,
          hchild l, hchild r]

theorem ztrunc_eq_truncateDepth :
    ∀ t (b : Nat), 1 ≤ b → ztrunc (b : ℤ) t = truncateDepth b t := by
  intro t
  induction t using stree_induction with
  | h bg c pd l r ihl ihr =>
      intro b hb
      simp only [ztrunc, truncateDepth]
      by_cases h1 : b = 1
      · subst h1
        norm_num
      · have hge : 2 ≤ b := by omega
        rw [if_neg (by omega : ¬ ((b : ℤ) - 1 = 0)), if_neg (by omega)]
        have hcast : ((b : ℤ)) - 1 = (((b - 1 : ℕ)) : ℤ) := by omega
        rw [hcast]
        have hrec : ∀ (o : Option STree)
            (iho : ∀ u, o = some u → ∀ bb : Nat, 1 ≤ bb →
              ztrunc (bb : ℤ) u = truncateDepth bb u),
            oztrunc ((b - 1 : ℕ) : ℤ) o = otruncateDepth (b - 1) o := by
          intro o iho
          cases o with
          | none => simp [oztrunc, otruncateDepth]
          | some u =>
              simp only [oztrunc, otruncateDepth]
              rw [iho u rfl (b - 1) (by omega)]
        rw [hrec l (fun u hu => ihl u hu), hrec r (fun u hu => ihr u hu)]

/-- Claim C7, amended: a depth-limited save with budget `b ≥ 1` persists
exactly the nodes at depth `< b` (children below the budget are omitted from
the persisted form) and leaves the live in-memory tree unchanged — every
node's children and `parentDistance` are restored.  (With budget 1 the
persisted form is the root alone; the scenario-C outcome of root plus its two
immediate children requires budget 2.) -/
theorem serialize_depth_budget (b : Nat) (hb : 1 ≤ b) (t : STree) :
    serializeSave b none t = (truncateDepth b t, t) := by
  rw [serializeSave_root, ztrunc_eq_truncateDepth t b hb]

/-- The scenario-A tree as an `STree` (7 nodes, depth 3), with arbitrary
integer `parentDistance` values. -/
def sscenario : STree :=
  .mk 0 8 0
    (some (.mk 0 4 2 (some (.mk 0 2 1 none none)) (some (.mk 2 2 1 none none))))
    (some (.mk 4 4 2 (some (.mk 4 2 1 none none)) (some (.mk 6 2 1 none none))))

/-- Counterexample to claim C7 as stated: saving the 7-node scenario-A tree
with depth budget 1 persists exactly one node (the root alone, its children
hidden because the root's counter is `1 - 1 = 0`), not the three nodes (root
plus both children) the claim describes; the live tree is unchanged. -/
theorem serialize_budget_one_root_only :
    ssize sscenario = 7 ∧
    sformCount ((serializeSave 1 none sscenario).1) = 1 ∧
    ¬ sformCount ((serializeSave 1 none sscenario).1) = 3 ∧
    (serializeSave 1 none sscenario).2 = sscenario := by
  refine ⟨by rfl, ?_, ?_, ?_⟩
  · rw [serializeSave_root]
    rfl
  · rw [serializeSave_root]
    decide
  · rw [serializeSave_root]

/-- Witness for the amended C7: budget 2 persists the root and its two
immediate children (3 nodes) and the live tree keeps all 7 nodes. -/
theorem serialize_depth_budget_witness :
    1 ≤ 2 ∧
    serializeSave 2 none sscenario = (truncateDepth 2 sscenario, sscenario) ∧
    sformCount (truncateDepth 2 sscenario) = 3 :=
  ⟨by omega, serialize_depth_budget 2 (by omega) sscenario, by rfl⟩

/-! ## Copy constructor (pointer-annotated trees)

The copy constructor (lines 203–258) copies `parent` verbatim from the
source node, clones the dataset buffer only when the copied node is a root
(`other.parent == NULL`) and sets `dataset = NULL` otherwise, deep-copies the
children (re-pointing each child's `parent` at the new node), and finally —
only at a root copy — walks the copied subtree breadth-first re-pointing
every descendant's `dataset` at the cloned buffer.  Pointer identity matters
here, so nodes carry abstract addresses (`Nat`); `none` models a null
pointer. -/

/-- A node with its pointer values made explicit: its own address, its
`parent` and `dataset` pointers, its range and its children. -/
inductive PTree : Type where
  | mk (addr : Nat) (parentPtr datasetPtr : Option Nat) (begin_ count : Nat)
       (left right : Option PTree) : PTree

/-- `parent` pointer of a `PTree` node. -/
def pparent : PTree → Option Nat
  | .mk _ pp _ _ _ _ _ => pp

/-- `dataset` pointer of a `PTree` node. -/
def pdataset : PTree → Option Nat
  | .mk _ _ dp _ _ _ _ => dp

mutual

/-- Node count of a `PTree`. -/
def psize : PTree → Nat
  | .mk _ _ _ _ _ l r => 1 + opsize l + opsize r

/-- `psize` lifted to a nullable child pointer. -/
def opsize : Option PTree → Nat
  | none => 0
  | some t => psize t

end

/-- Structural induction for the nested inductive `PTree`. -/
theorem ptree_induction (P : PTree → Prop)
    (h : ∀ a pp dp b c l r,
      (∀ u, l = some u → P u) → (∀ u, r = some u → P u) →
      P (.mk a pp dp b c l r)) : ∀ t, P t := by
  have main : ∀ n t, psize t ≤ n → P t := by
    intro n
    induction n with
    | zero =>
        intro t ht
        cases t with
        | mk a pp dp b c l r => simp [psize] at ht
    | succ n ih =>
        intro t ht
        cases t with
        | mk a pp dp b c l r =>
            apply h
            · intro u hu
              apply ih
              subst hu
              simp only [psize, opsize] at ht ⊢
              omega
            · intro u hu
              apply ih
              subst hu
              simp only [psize, opsize] at ht ⊢
              omega
  intro t
  exact main (psize t) t (Nat.le_refl _)

mutual

/-- All nodes of a `PTree` subtree. -/
def pnodesOf : PTree → List PTree
  | .mk a pp dp b c l r => .mk a pp dp b c l r :: (opnodesOf l ++ opnodesOf r)

/-- `pnodesOf` lifted to a nullable child pointer. -/
def opnodesOf : Option PTree → List PTree
  | none => []
  | some t => pnodesOf t

end

/-- The proper descendants of a node (all nodes strictly below it). -/
def pdescNodes : PTree → List PTree
  | .mk _ _ _ _ _ l r => opnodesOf l ++ opnodesOf r

/-- Every node strictly below the top has a non-null parent pointer — true of
any well-formed tree (the build links each child's `parent` to its parent
node). -/
def ParentsBelowNonNull (t : PTree) : Prop :=
  ∀ n ∈ pdescNodes t, pparent n ≠ none

/-- `left->Parent() = this` / `right->Parent() = this` (lines 229, 235): only
the top node's parent pointer changes. -/
def setParentTop (p : Option Nat) : PTree → PTree
  | .mk a _ dp b c l r => .mk a p dp b c l r

/-- `setParentTop` on a nullable copy result. -/
def osetParentTop (p : Option Nat) : Option PTree → Option PTree
  | none => none
  | some t => some (setParentTop p t)

mutual

/-- The breadth-first dataset relink of a root copy (lines 239–257): point
every node of the subtree at the cloned buffer. -/
def setDatasetAll (d : Option Nat) : PTree → PTree
  | .mk a pp _ b c l r =>
      .mk a pp d b c (osetDatasetAll d l) (osetDatasetAll d r)

/-- `setDatasetAll` lifted to a nullable child pointer. -/
def osetDatasetAll (d : Option Nat) : Option PTree → Option PTree
  | none => none
  | some t => some (setDatasetAll d t)

end

mutual

/-- The copy constructor (lines 203–258), threading a fresh-address
allocator: the new node takes a fresh address, `parent` is copied verbatim
from the source, `dataset` is a freshly cloned buffer iff the source node is
a root (`other.parent == NULL`) and null otherwise; children are deep-copied
with their `parent` re-pointed at the new node; a root copy finally
re-points every descendant's `dataset` at the cloned buffer. -/
def copyCtor : Nat → PTree → PTree × Nat
  | alloc, .mk _ none _ b c l r =>
    -- Root copy (`other.parent == NULL`): clone the dataset into a fresh
    -- buffer at `alloc + 1`, copy the children re-pointing their parents at
    -- the new node (`alloc`), then re-point every descendant's dataset at
    -- the cloned buffer.
    (.mk alloc none (some (alloc + 1)) b c
      (osetDatasetAll (some (alloc + 1))
        (osetParentTop (some alloc) (ocopyCtor (alloc + 2) l).1))
      (osetDatasetAll (some (alloc + 1))
        (osetParentTop (some alloc)
          (ocopyCtor (ocopyCtor (alloc + 2) l).2 r).1)),
     (ocopyCtor (ocopyCtor (alloc + 2) l).2 r).2)
  | alloc, .mk _ (some pp) _ b c l r =>
    -- Non-root copy: `parent` copied verbatim, `dataset = NULL`, no relink.
    (.mk alloc (some pp) none b c
      (osetParentTop (some alloc) (ocopyCtor (alloc + 2) l).1)
      (osetParentTop (some alloc) (ocopyCtor (ocopyCtor (alloc + 2) l).2 r).1),
     (ocopyCtor (ocopyCtor (alloc + 2) l).2 r).2)

/-- `copyCtor` lifted to a nullable child pointer. -/
def ocopyCtor : Nat → Option PTree → Option PTree × Nat
  | alloc, none => (none, alloc)
  | alloc, some t => (some (copyCtor alloc t).1, (copyCtor alloc t).2)

end

theorem setDatasetAll_nodes (d : Option Nat) :
    ∀ t, ∀ n ∈ pnodesOf (setDatasetAll d t), pdataset n = d := by
  intro t
  induction t using ptree_induction with
  | h a pp dp b c l r ihl ihr =>
      intro n hn
      simp only [setDatasetAll, pnodesOf] at hn
      rcases List.mem_cons.mp hn with h | h
      · subst h; rfl
      · rcases List.mem_append.mp h with h2 | h2
        · cases l with
          | none => simp [osetDatasetAll, opnodesOf] at h2
          | some u =>
              simp only [osetDatasetAll, opnodesOf] at h2
              exact ihl u rfl n h2
        · cases r with
          | none => simp [osetDatasetAll, opnodesOf] at h2
          | some u =>
              simp only [osetDatasetAll, opnodesOf] at h2
              exact ihr u rfl n h2

theorem pnodesOf_setParentTop_dataset (p : Option Nat) (t : PTree) :
    (pnodesOf (setParentTop p t)).map pdataset =
      (pnodesOf t).map pdataset := by
  cases t with
  | mk a pp dp b c l r => simp [setParentTop, pnodesOf, pdataset]

/-- A child node's subtree is wholly contained in the parent's descendant
list, so well-formedness passes to children. -/
theorem wf_child (a : Nat) (pp dp : Option Nat) (b c : Nat)
    (l r : Option PTree) (u : PTree)
    (hwf : ParentsBelowNonNull (.mk a pp dp b c l r))
    (hu : l = some u ∨ r = some u) :
    pparent u ≠ none ∧ ParentsBelowNonNull u := by
  have hsub : ∀ n ∈ pnodesOf u, n ∈ pdescNodes (PTree.mk a pp dp b c l r) := by
    intro n hn
    simp only [pdescNodes]
    rcases hu with hu | hu
    · exact List.mem_append.mpr (Or.inl (by rw [hu]; simpa [opnodesOf] using hn))
    · exact List.mem_append.mpr (Or.inr (by rw [hu]; simpa [opnodesOf] using hn))
  constructor
  · apply hwf
    apply hsub
    cases u with
    | mk a2 pp2 dp2 b2 c2 l2 r2 => simp [pnodesOf]
  · intro n hn
    apply hwf
    apply hsub
    cases u with
    | mk a2 pp2 dp2 b2 c2 l2 r2 =>
        simp only [pnodesOf, pdescNodes] at hn ⊢
        exact List.mem_cons_of_mem _ hn

/-- Every node of a non-root copy has a null dataset pointer (the top's
`parent` is non-null, so no buffer is cloned, and every source node below the
top also has a non-null parent). -/
theorem copy_nonroot_dataset_null :
    ∀ t, ParentsBelowNonNull t → pparent t ≠ none →
      ∀ alloc, ∀ n ∈ pnodesOf (copyCtor alloc t).1, pdataset n = none := by
  intro t
  induction t using ptree_induction with
  | h a pp dp b c l r ihl ihr =>
      intro hwf htop alloc n hn
      cases pp with
      | none => simp [pparent] at htop
      | some pv =>
          simp only [copyCtor, pnodesOf] at hn
          rcases List.mem_cons.mp hn with h | h
          · subst h
            rfl
          · rcases List.mem_append.mp h with h2 | h2
            · cases hl : l with
              | none =>
                  rw [hl] at h2
                  simp [ocopyCtor, osetParentTop, opnodesOf] at h2
              | some u =>
                  rw [hl] at h2
                  simp only [ocopyCtor, osetParentTop, opnodesOf] at h2
                  have hmap := pnodesOf_setParentTop_dataset (some alloc)
                    (copyCtor (alloc + 2) u).1
                  have hwfu := wf_child a (some pv) dp b c l r u hwf (Or.inl hl)
                  have hin : pdataset n ∈
                      (pnodesOf (setParentTop (some alloc)
                        (copyCtor (alloc + 2) u).1)).map pdataset :=
                    List.mem_map_of_mem _ h2
                  rw [hmap] at hin
                  obtain ⟨m, hm, hmd⟩ := List.mem_map.mp hin
                  rw [← hmd]
                  exact ihl u hl hwfu.2 hwfu.1 (alloc + 2) m hm
            · cases hr : r with
              | none =>
                  rw [hr] at h2
                  simp [ocopyCtor, osetParentTop, opnodesOf] at h2
              | some u =>
                  rw [hr] at h2
                  simp only [ocopyCtor, osetParentTop, opnodesOf] at h2
                  have hmap := pnodesOf_setParentTop_dataset (some alloc)
                    (copyCtor (ocopyCtor (alloc + 2) l).2 u).1
                  have hwfu := wf_child a (some pv) dp b c l r u hwf (Or.inr hr)
                  have hin : pdataset n ∈
                      (pnodesOf (setParentTop (some alloc)
                        (copyCtor (ocopyCtor (alloc + 2) l).2 u).1)).map
                        pdataset :=
                    List.mem_map_of_mem _ h2
                  rw [hmap] at hin
                  obtain ⟨m, hm, hmd⟩ := List.mem_map.mp hin
                  rw [← hmd]
                  exact ihr u hr hwfu.2 hwfu.1 _ m hm

/-- Claim C10: copy-constructing a non-root node (non-null parent) yields a
copy in which every node's dataset pointer is null — neither a clone of nor a
reference to the original buffer — while the top copy's parent pointer still
holds the original parent's address; copy-constructing a root clones the
dataset into a fresh buffer and re-points every node of the copy at that
single cloned buffer. -/
theorem copy_ctor_dataset_parent (t : PTree)
    (hwf : ParentsBelowNonNull t) (alloc : Nat) :
    (∀ p, pparent t = some p →
      pparent (copyCtor alloc t).1 = some p ∧
      ∀ n ∈ pnodesOf (copyCtor alloc t).1, pdataset n = none) ∧
    (pparent t = none →
      ∀ n ∈ pnodesOf (copyCtor alloc t).1, pdataset n = some (alloc + 1)) := by
  constructor
  · intro p hp
    constructor
    · cases t with
      | mk a pp dp b c l r =>
          simp only [pparent] at hp
          subst hp
          rfl
    · exact fun n hn =>
        copy_nonroot_dataset_null t hwf (by simp [hp]) alloc n hn
  · intro hp
    cases t with
    | mk a pp dp b c l r =>
        simp only [pparent] at hp
        subst hp
        intro n hn
        simp only [copyCtor, pnodesOf] at hn
        rcases List.mem_cons.mp hn with h | h
        · subst h
          rfl
        · rcases List.mem_append.mp h with h2 | h2
          · cases hl : l with
            | none =>
                rw [hl] at h2
                simp [ocopyCtor, osetParentTop, osetDatasetAll, opnodesOf] at h2
            | some u =>
                rw [hl] at h2
                simp only [ocopyCtor, osetParentTop, osetDatasetAll,
                  opnodesOf] at h2
                exact setDatasetAll_nodes _ _ n h2
          · cases hr : r with
            | none =>
                rw [hr] at h2
                simp [ocopyCtor, osetParentTop, osetDatasetAll, opnodesOf] at h2
            | some u =>
                rw [hr] at h2
                simp only [ocopyCtor, osetParentTop, osetDatasetAll,
                  opnodesOf] at h2
                exact setDatasetAll_nodes _ _ n h2

/-- A small concrete tree for the C10 witness: a non-root node at address 10
whose parent lives at address 7, with two leaf children (dataset pointer 42
shared from the original root). -/
def pwitnessTree : PTree :=
  .mk 10 (some 7) (some 42) 0 4
    (some (.mk 11 (some 10) (some 42) 0 2 none none))
    (some (.mk 12 (some 10) (some 42) 2 2 none none))

/-- Witness for C10: copying the non-root `pwitnessTree` yields a copy whose
top parent pointer is still 7 and whose nodes all have null dataset
pointers. -/
theorem copy_ctor_dataset_parent_witness :
    pparent (copyCtor 100 pwitnessTree).1 = some 7 ∧
    ∀ n ∈ pnodesOf (copyCtor 100 pwitnessTree).1, pdataset n = none :=
  (copy_ctor_dataset_parent pwitnessTree
    (by
      intro n hn
      simp only [pwitnessTree, pdescNodes, opnodesOf, pnodesOf,
        List.mem_append, List.mem_cons, List.not_mem_nil, or_false] at hn
      rcases hn with h | h <;> subst h <;> simp [pparent]) 100).1 7 rfl

/-! ## Distributed dual-tree traversal vs the single-process traversal

The coordinator (`MasterTraverse`, lines 103–167) recurses locally while
`level < ceil(log2(world.size()-1))/2`, scoring each pair, running all base
cases (`NumPoints` is 0 for an internal node), and recursing into the child
combinations in the order LL, LR, RL, RR; at the cutoff it dispatches the
pair — a snapshot of the Rule plus the two subtrees — to
`GetTarget(queryNode, referenceNode)` and registers a receive for that rank.
After `Traverse` (lines 69–101) waits for all results it merges
`results[i].Merge(*rule)` for `i = 0 .. world.size()-2` in ascending rank
order; a slot whose rank never received a task still holds a
default-constructed (empty) results wrapper.  A worker (lines 27–57 and
169–179) receives one task, runs the standard dual-tree traversal on it with
the received Rule, and sends its accumulated result table back.

The Rule is modelled generically (`RuleModel`): a result state `σ`, a score
test (`true` ⇔ `Score` returned `DBL_MAX`, i.e. prune) that may inspect the
current state, the base case, the merge of a returned result table into the
coordinator state, and the default-constructed empty table.

The single-process dual-tree traverser is consumed from outside this
repository.  Modelled from the spec (§4.3): the missing
`BinarySpaceTree::DualTreeTraverser::Traverse` computes the score, prunes on
the sentinel, runs all point-pair base cases once both sides are leaves, and
otherwise recurses into the child combinations with exactly the recursion
shape the distributed layer uses locally (`singleTraverse`). -/

/-- A Rule: state type, pruning score test, base case, merge of a worker's
returned result table, and the default-constructed empty table. -/
structure RuleModel (σ : Type) where
  score : σ → BSTree → BSTree → Bool
  baseCase : σ → Nat → Nat → σ
  merge : σ → σ → σ
  empty : σ

/-- `NumPoints()`/`Point(i)` (lines 496–507, 600–611): an internal node
holds no points directly; a leaf holds `begin, …, begin + count - 1`. -/
def pointsOf : BSTree → List Nat
  | .mk b c none _ => List.range' b c
  | .mk _ _ (some _) _ => []

/-- Run a list of base-case point pairs through the Rule, in order. -/
def applyBC {σ : Type} (R : RuleModel σ) (s : σ) (l : List (Nat × Nat)) : σ :=
  l.foldl (fun s2 pr => R.baseCase s2 pr.1 pr.2) s

/-- The nested base-case loops (lines 122–124): all pairs
`(queryNode.Point(i), referenceNode.Point(j))`, outer loop over the query
points. -/
def baseCases {σ : Type} (R : RuleModel σ) (s : σ) (q r : BSTree) : σ :=
  (pointsOf q).foldl
    (fun s1 i => (pointsOf r).foldl (fun s2 j => R.baseCase s2 i j) s1) s

/-- The base-case pairs as a list, in loop order. -/
def basePairs (q r : BSTree) : List (Nat × Nat) :=
  (pointsOf q).bind (fun i => (pointsOf r).map (fun j => (i, j)))

/-- The recursive child combinations visited by the traversals (lines
127–145), in source order, each with the branch direction taken in the query
and reference trees (`none`: that tree did not descend).  Four-way when both
nodes are internal, two-way when exactly one is; a node with only one child
would make the source dereference a null pointer (unreachable for built
trees) and contributes no recursion here. -/
def childSteps : BSTree → BSTree → List (BSTree × BSTree × Option Bool × Option Bool)
  | .mk _ _ (some ql) (some qr), .mk _ _ (some rl) (some rr) =>
      [(ql, rl, some false, some false), (ql, rr, some false, some true),
       (qr, rl, some true, some false), (qr, rr, some true, some true)]
  | .mk qb qc none qor, .mk _ _ (some rl) (some rr) =>
      [(.mk qb qc none qor, rl, none, some false),
       (.mk qb qc none qor, rr, none, some true)]
  | .mk _ _ (some ql) (some qr), .mk rb rc none ror =>
      [(ql, .mk rb rc none ror, some false, none),
       (qr, .mk rb rc none ror, some true, none)]
  | _, _ => []

/-- Extend a root-first path by a taken branch (`none`: no descent). -/
def extendPath (p : List Bool) : Option Bool → List Bool
  | none => p
  | some d => p ++ [d]

/-- Modelled from the spec: the single-process dual-tree traversal (§4.3,
consumed as `DualTreeTraverser::Traverse`, not part of this repository's
sources) — score, prune on the sentinel, base cases for the held points,
then recurse into the child combinations in source order.  The C++
recursion is driven by fuel; any `fuel ≥ size q + size r` is enough. -/
def singleTraverse {σ : Type} (R : RuleModel σ) :
    Nat → σ → BSTree → BSTree → σ
  | 0, s, _, _ => s
  | fuel + 1, s, q, r =>
    if R.score s q r then s
    else
      (childSteps q r).foldl
        (fun si st => singleTraverse R fuel si st.1 st.2.1)
        (baseCases R s q r)

/-- `MasterTraverse(queryNode, referenceNode, level)` (lines 103–167): local
bounded recursion below the cutoff (score, base cases, child recursion in
source order), dispatch at the cutoff.  Returns the coordinator's Rule state
and the ordered list of dispatched tasks
`(target rank, Rule snapshot, query node, reference node)`; `qp`/`rp` are the
root-first branch paths of the current pair (the source recovers them from
the parent pointers in `GetTarget`). -/
def masterTraverse {σ : Type} (R : RuleModel σ) (W : Nat) :
    Nat → σ → BSTree → BSTree → Nat → List Bool → List Bool →
      σ × List (Nat × σ × BSTree × BSTree)
  | 0, s, _, _, _, _, _ => (s, [])
  | fuel + 1, s, q, r, level, qp, rp =>
    if localRecurse W level then
      if R.score s q r then (s, [])
      else
        (childSteps q r).foldl
          (fun acc st =>
            let res := masterTraverse R W fuel acc.1 st.1 st.2.1 (level + 1)
              (extendPath qp st.2.2.1) (extendPath rp st.2.2.2)
            (res.1, acc.2 ++ res.2))
          (baseCases R s q r, [])
    else
      (s, [(getTarget qp rp, s, q, r)])

/-- A worker (lines 27–57, 169–179): run the single-process traversal on the
received pair starting from the received Rule snapshot; the result state is
what it sends back. -/
def workerRun {σ : Type} (R : RuleModel σ) (fuel : Nat)
    (d : Nat × σ × BSTree × BSTree) : σ :=
  singleTraverse R fuel d.2.1 d.2.2.1 d.2.2.2

/-- The coordinator's complete run (`Traverse`, lines 69–101): local phase,
then merge `results[i]` for `i = 0 .. W - 1` in ascending rank order — the
result received from rank `i + 1` if a task was dispatched there (the first
such dispatch; collisions are a documented protocol violation), the
default-constructed empty table otherwise. -/
def distributedResult {σ : Type} (R : RuleModel σ) (W fuel : Nat) (s0 : σ)
    (q r : BSTree) : σ :=
  (List.range W).foldl
    (fun s i =>
      match (masterTraverse R W fuel s0 q r 0 [] []).2.find?
          (fun d => d.1 == i + 1) with
      | some d => R.merge s (workerRun R fuel d)
      | none => R.merge s R.empty)
    (masterTraverse R W fuel s0 q r 0 [] []).1

/-- Both trees descend as genuine dual four-way splits for `d` levels: every
node above depth `d` has both children. -/
def uniformDeep : Nat → BSTree → Bool
  | 0, _ => true
  | n + 1, .mk _ _ (some l) (some r) => uniformDeep n l && uniformDeep n r
  | _ + 1, .mk _ _ _ _ => false

/-- A Rule whose pruning score depends on the accumulated result state: prune
as soon as any base case has run.  Its result table is the list of base-case
pairs, merged by concatenation. -/
def rulePrune : RuleModel (List (Nat × Nat)) where
  score s _ _ := !s.isEmpty
  baseCase s i j := s ++ [(i, j)]
  merge s w := s ++ w
  empty := []

/-- A two-point, depth-1 tree: root `[0, 2)` with leaf children. -/
def T2 : BSTree :=
  .mk 0 2 (some (.mk 0 1 none none)) (some (.mk 1 1 none none))

/-- Counterexample to claim C1 as stated: with 4 workers (a worker count
consistent with the dispatch depth, `4 = 4^1`), identical two-point query and
reference trees reaching the cutoff depth, and the state-dependent Rule
`rulePrune`, the coordinator's merged result after the distributed traversal
is all four base-case pairs, while the single-process traversal prunes the
last three branches (its score sees the accumulated state) and produces only
the first pair.  The merged result does not equal the single-process
result. -/
theorem distributed_differs_from_single :
    distributedResult rulePrune 4 6 [] T2 T2 = [(0, 0), (0, 1), (1, 0), (1, 1)] ∧
    singleTraverse rulePrune 6 [] T2 T2 = [(0, 0)] ∧
    distributedResult rulePrune 4 6 [] T2 T2 ≠
      singleTraverse rulePrune 6 [] T2 T2 := by
  have hc : Nat.clog 2 4 = 2 := by
    rw [show (4 : ℕ) = 2 ^ 2 by norm_num]
    exact Nat.clog_pow 2 2 (by norm_num)
  have h0 : localRecurse 4 0 = true := by simp [localRecurse, hc]
  have h1 : localRecurse 4 1 = false := by simp [localRecurse, hc]
  have hm : masterTraverse rulePrune 4 6 [] T2 T2 0 [] [] =
      ([], [(1, [], .mk 0 1 none none, .mk 0 1 none none),
            (2, [], .mk 0 1 none none, .mk 1 1 none none),
            (3, [], .mk 1 1 none none, .mk 0 1 none none),
            (4, [], .mk 1 1 none none, .mk 1 1 none none)]) := by
    simp [masterTraverse, h0, h1, T2, rulePrune, childSteps, baseCases,
      pointsOf, extendPath, getTarget, getTargetAux, branchCode]
  have hd : distributedResult rulePrune 4 6 [] T2 T2 =
      [(0, 0), (0, 1), (1, 0), (1, 1)] := by
    simp only [distributedResult, hm]
    decide
  have hs : singleTraverse rulePrune 6 [] T2 T2 = [(0, 0)] := by decide
  exact ⟨hd, hs, by rw [hd, hs]; decide⟩

/-! ### The amended equivalence

With a state-independent score, each traversal's base-case sequence is a
function of the node pair alone (`traceT`); the distributed run then differs
from the single-process run only in how the trace is threaded through the
Rule, and the two agree for Rules whose merge replays a worker's table onto
the coordinator state. -/

/-- The base-case trace of the (spec-modelled) single-process traversal under
a state-independent pruning predicate `p`. -/
def traceT (p : BSTree → BSTree → Bool) : Nat → BSTree → BSTree → List (Nat × Nat)
  | 0, _, _ => []
  | fuel + 1, q, r =>
    if p q r then []
    else basePairs q r ++ (childSteps q r).bind (fun st => traceT p fuel st.1 st.2.1)

theorem applyBC_append {σ : Type} (R : RuleModel σ) (s : σ)
    (l1 l2 : List (Nat × Nat)) :
    applyBC R s (l1 ++ l2) = applyBC R (applyBC R s l1) l2 := by
  simp [applyBC, List.foldl_append]

theorem applyBC_map_inner {σ : Type} (R : RuleModel σ) (i : Nat)
    (rs : List Nat) :
    ∀ s, applyBC R s (rs.map (fun j => (i, j))) =
      rs.foldl (fun s2 j => R.baseCase s2 i j) s := by
  induction rs with
  | nil => intro s; simp [applyBC]
  | cons j rest ih => intro s; simp [applyBC, List.foldl_cons] at ih ⊢; exact ih _

theorem baseCases_eq {σ : Type} (R : RuleModel σ) (s : σ) (q r : BSTree) :
    baseCases R s q r = applyBC R s (basePairs q r) := by
  unfold baseCases basePairs
  induction pointsOf q generalizing s with
  | nil => simp [applyBC]
  | cons i qs ih =>
      simp only [List.foldl_cons, List.cons_bind]
      rw [applyBC_append, applyBC_map_inner, ih]

theorem singleTraverse_trace {σ : Type} (R : RuleModel σ)
    (p : BSTree → BSTree → Bool) (hs : ∀ s q r, R.score s q r = p q r) :
    ∀ fuel s q r, singleTraverse R fuel s q r = applyBC R s (traceT p fuel q r) := by
  intro fuel
  induction fuel with
  | zero => intro s q r; simp [singleTraverse, traceT, applyBC]
  | succ fuel ih =>
      intro s q r
      simp only [singleTraverse, traceT, hs]
      by_cases hp : p q r
      · simp [hp, applyBC]
      · simp only [hp, if_false, Bool.false_eq_true]
        rw [baseCases_eq]
        have main : ∀ (steps : List (BSTree × BSTree × Option Bool × Option Bool))
            (s1 : σ),
            steps.foldl (fun si st => singleTraverse R fuel si st.1 st.2.1) s1 =
              applyBC R s1 (steps.bind (fun st => traceT p fuel st.1 st.2.1)) := by
          intro steps
          induction steps with
          | nil => intro s1; simp [applyBC]
          | cons st rest ihs =>
              intro s1
              simp only [List.foldl_cons, List.cons_bind]
              rw [applyBC_append, ← ih, ihs]
        rw [main, applyBC_append]

theorem size_pos (t : BSTree) : 1 ≤ size t := by
  cases t with
  | mk b c l r => simp [size]; omega

theorem childSteps_size (q r : BSTree) :
    ∀ st ∈ childSteps q r, size st.1 + size st.2.1 + 1 ≤ size q + size r := by
  intro st hst
  cases q with
  | mk qb qc ql qr =>
      cases r with
      | mk rb rc rl rr =>
          cases ql <;> cases qr <;> cases rl <;> cases rr <;>
            simp only [childSteps, List.mem_cons, List.not_mem_nil,
              or_false] at hst <;>
            first
            | (rcases hst with rfl | rfl | rfl | rfl <;>
                (simp [size, osize]; omega))
            | (rcases hst with rfl | rfl <;> (simp [size, osize]; omega))

theorem traceT_fuel_eq (p : BSTree → BSTree → Bool) :
    ∀ f1 f2 q r, size q + size r ≤ f1 → size q + size r ≤ f2 →
      traceT p f1 q r = traceT p f2 q r := by
  intro f1
  induction f1 with
  | zero =>
      intro f2 q r h1 _
      have := size_pos q
      have := size_pos r
      omega
  | succ f1 ih =>
      intro f2 q r h1 h2
      cases f2 with
      | zero =>
          have := size_pos q
          have := size_pos r
          omega
      | succ f2 =>
          simp only [traceT]
          by_cases hp : p q r
          · simp [hp]
          · simp only [hp, if_false, Bool.false_eq_true]
            congr 1
            apply List.bind_congr
            intro st hst
            have := childSteps_size q r st hst
            exact ih f2 st.1 st.2.1 (by omega) (by omega)

theorem uniformDeep_size : ∀ d q, uniformDeep d q = true → d + 1 ≤ size q := by
  intro d
  induction d with
  | zero => intro q _; exact size_pos q
  | succ d ih =>
      intro q hq
      cases q with
      | mk b c l r =>
          cases l with
          | none => simp [uniformDeep] at hq
          | some lt =>
              cases r with
              | none => simp [uniformDeep] at hq
              | some rt =>
                  simp only [uniformDeep, Bool.and_eq_true] at hq
                  have := ih lt hq.1
                  have := size_pos rt
                  simp only [size, osize]
                  omega

theorem pointsOf_internal (b c : Nat) (lt : BSTree) (r : Option BSTree) :
    pointsOf (.mk b c (some lt) r) = [] := rfl

theorem baseCases_internal {σ : Type} (R : RuleModel σ) (s : σ)
    (b c : Nat) (lt : BSTree) (qor : Option BSTree) (r : BSTree) :
    baseCases R s (.mk b c (some lt) qor) r = s := by
  simp [baseCases, pointsOf]

theorem basePairs_internal (b c : Nat) (lt : BSTree) (qor : Option BSTree)
    (r : BSTree) : basePairs (.mk b c (some lt) qor) r = [] := by
  simp [basePairs, pointsOf]

/-- The dispatch enumeration of the coordinator's local phase, under a
state-independent pruning predicate, for a uniformly deep pair: at remaining
depth 0 the pair is dispatched unconditionally, above it the pair is scored
and the four dual branches enumerated in source order. -/
def denum {σ : Type} (p : BSTree → BSTree → Bool) (s0 : σ) :
    Nat → BSTree → BSTree → List Bool → List Bool →
      List (Nat × σ × BSTree × BSTree)
  | 0, q, r, qp, rp => [(getTarget qp rp, s0, q, r)]
  | k + 1, q, r, qp, rp =>
    if p q r then []
    else
      match q, r with
      | .mk _ _ (some ql) (some qr), .mk _ _ (some rl) (some rr) =>
          denum p s0 k ql rl (qp ++ [false]) (rp ++ [false]) ++
          denum p s0 k ql rr (qp ++ [false]) (rp ++ [true]) ++
          denum p s0 k qr rl (qp ++ [true]) (rp ++ [false]) ++
          denum p s0 k qr rr (qp ++ [true]) (rp ++ [true])
      | _, _ => []

theorem denum_snapshot {σ : Type} (p : BSTree → BSTree → Bool) (s0 : σ) :
    ∀ k q r qp rp, ∀ dsp ∈ denum p s0 k q r qp rp, dsp.2.1 = s0 := by
  intro k
  induction k with
  | zero =>
      intro q r qp rp dsp hd
      simp only [denum, List.mem_cons, List.not_mem_nil, or_false] at hd
      subst hd
      rfl
  | succ k ih =>
      intro q r qp rp dsp hd
      simp only [denum] at hd
      by_cases hp : p q r
      · simp [hp] at hd
      · simp only [hp, if_false, Bool.false_eq_true] at hd
        cases q with
        | mk qb qc ql qr =>
            cases r with
            | mk rb rc rl rr =>
                cases ql <;> cases qr <;> cases rl <;> cases rr <;>
                  simp only [List.mem_append, List.not_mem_nil, or_false] at hd <;>
                  first
                  | (rcases hd with ((hd | hd) | hd) | hd <;> exact ih _ _ _ _ dsp hd)
                  | cases hd

theorem denum_sizes {σ : Type} (p : BSTree → BSTree → Bool) (s0 : σ) :
    ∀ k q r qp rp, ∀ dsp ∈ denum p s0 k q r qp rp,
      size dsp.2.2.1 + size dsp.2.2.2 ≤ size q + size r := by
  intro k
  induction k with
  | zero =>
      intro q r qp rp dsp hd
      simp only [denum, List.mem_cons, List.not_mem_nil, or_false] at hd
      subst hd
      simp
  | succ k ih =>
      intro q r qp rp dsp hd
      simp only [denum] at hd
      by_cases hp : p q r
      · simp [hp] at hd
      · simp only [hp, if_false, Bool.false_eq_true] at hd
        cases q with
        | mk qb qc ql qr =>
            cases r with
            | mk rb rc rl rr =>
                cases ql <;> cases qr <;> cases rl <;> cases rr <;>
                  simp only [List.mem_append, List.not_mem_nil,
                    or_false] at hd <;>
                  rcases hd with ((hd | hd) | hd) | hd <;>
                  (have hsub := ih _ _ _ _ dsp hd
                   simp only [size, osize] at hsub ⊢
                   omega)

theorem localRecurse_pow4 (d level : Nat) :
    localRecurse (4 ^ d) level = decide (level < d) := by
  have hck : Nat.clog 2 (4 ^ d) = 2 * d := by
    rw [show (4 : ℕ) = 2 ^ 2 by norm_num, ← Nat.pow_mul,
      Nat.clog_pow 2 (2 * d) (by omega)]
  unfold localRecurse
  rw [hck]
  exact decide_eq_decide.mpr (by omega)

/-- Under a state-independent score, with `W = 4^d` workers and both trees
uniformly deep, the coordinator's local phase leaves its Rule state untouched
(no base case runs above the cutoff) and produces exactly the `denum`
dispatch list, every task carrying the initial state as its snapshot. -/
theorem master_denum {σ : Type} (R : RuleModel σ) (p : BSTree → BSTree → Bool)
    (hs : ∀ s q r, R.score s q r = p q r) (d : Nat) :
    ∀ k fuel level (s : σ) q r qp rp, level + k = d → k < fuel →
      uniformDeep k q = true → uniformDeep k r = true →
      masterTraverse R (4 ^ d) fuel s q r level qp rp =
        (s, denum p s k q r qp rp) := by
  intro k
  induction k with
  | zero =>
      intro fuel level s q r qp rp hlev hfuel _ _
      cases fuel with
      | zero => omega
      | succ f =>
          simp only [masterTraverse, localRecurse_pow4]
          have : ¬ level < d := by omega
          simp [this, denum]
  | succ k ih =>
      intro fuel level s q r qp rp hlev hfuel hq hr
      cases fuel with
      | zero => omega
      | succ f =>
          simp only [masterTraverse, localRecurse_pow4]
          have hlt : level < d := by omega
          rw [if_pos (by simpa using hlt), hs]
          by_cases hp : p q r
          · simp [hp, denum]
          · simp only [hp, if_false, Bool.false_eq_true]
            cases q with
            | mk qb qc ql qr =>
                cases ql with
                | none => simp [uniformDeep] at hq
                | some qlt =>
                    cases qr with
                    | none => simp [uniformDeep] at hq
                    | some qrt =>
                        cases r with
                        | mk rb rc rl rr =>
                            cases rl with
                            | none => simp [uniformDeep] at hr
                            | some rlt =>
                                cases rr with
                                | none => simp [uniformDeep] at hr
                                | some rrt =>
                                    simp only [uniformDeep,
                                      Bool.and_eq_true] at hq hr
                                    rw [baseCases_internal]
                                    simp only [childSteps, List.foldl_cons,
                                      List.foldl_nil, extendPath]
                                    rw [ih f (level + 1) s qlt rlt
                                        (qp ++ [false]) (rp ++ [false])
                                        (by omega) (by omega) hq.1 hr.1]
                                    rw [ih f (level + 1) s qlt rrt
                                        (qp ++ [false]) (rp ++ [true])
                                        (by omega) (by omega) hq.1 hr.2]
                                    rw [ih f (level + 1) s qrt rlt
                                        (qp ++ [true]) (rp ++ [false])
                                        (by omega) (by omega) hq.2 hr.1]
                                    rw [ih f (level + 1) s qrt rrt
                                        (qp ++ [true]) (rp ++ [true])
                                        (by omega) (by omega) hq.2 hr.2]
                                    simp [denum, hp]
/-- The single-process trace of a uniformly deep pair decomposes into the
concatenation, in dispatch order, of the traces of the dispatched pairs. -/
theorem trace_denum {σ : Type} (p : BSTree → BSTree → Bool) (s0 : σ) :
    ∀ k q r qp rp, uniformDeep k q = true → uniformDeep k r = true →
      traceT p (size q + size r) q r =
        (denum p s0 k q r qp rp).bind
          (fun dsp => traceT p (size dsp.2.2.1 + size dsp.2.2.2)
            dsp.2.2.1 dsp.2.2.2) := by
  intro k
  induction k with
  | zero =>
      intro q r qp rp _ _
      simp [denum]
  | succ k ih =>
      intro q r qp rp hq hr
      cases q with
      | mk qb qc ql qr =>
          cases ql with
          | none => simp [uniformDeep] at hq
          | some qlt =>
              cases qr with
              | none => simp [uniformDeep] at hq
              | some qrt =>
                  cases r with
                  | mk rb rc rl rr =>
                      cases rl with
                      | none => simp [uniformDeep] at hr
                      | some rlt =>
                          cases rr with
                          | none => simp [uniformDeep] at hr
                          | some rrt =>
                              simp only [uniformDeep, Bool.and_eq_true] at hq hr
                              have hsz : ∃ n, size (BSTree.mk qb qc (some qlt) (some qrt)) +
                                  size (BSTree.mk rb rc (some rlt) (some rrt)) = n + 1 := by
                                have := size_pos (BSTree.mk qb qc (some qlt) (some qrt))
                                have := size_pos (BSTree.mk rb rc (some rlt) (some rrt))
                                exact ⟨size (BSTree.mk qb qc (some qlt) (some qrt)) +
                                  size (BSTree.mk rb rc (some rlt) (some rrt)) - 1,
                                  by omega⟩
                              obtain ⟨n, hn⟩ := hsz
                              have hszq : size (BSTree.mk qb qc (some qlt) (some qrt)) =
                                  1 + size qlt + size qrt := by simp [size, osize]
                              have hszr : size (BSTree.mk rb rc (some rlt) (some rrt)) =
                                  1 + size rlt + size rrt := by simp [size, osize]
                              rw [hn]
                              simp only [traceT, denum]
                              by_cases hp : p (BSTree.mk qb qc (some qlt) (some qrt))
                                  (BSTree.mk rb rc (some rlt) (some rrt))
                              · simp [hp]
                              · simp only [hp, if_false, Bool.false_eq_true,
                                  basePairs_internal, List.nil_append]
                                simp only [childSteps, List.cons_bind,
                                  List.nil_bind, List.append_nil,
                                  List.append_bind]
                                have e1 : traceT p n qlt rlt =
                                    traceT p (size qlt + size rlt) qlt rlt :=
                                  traceT_fuel_eq p n _ qlt rlt (by omega) (by omega)
                                have e2 : traceT p n qlt rrt =
                                    traceT p (size qlt + size rrt) qlt rrt :=
                                  traceT_fuel_eq p n _ qlt rrt (by omega) (by omega)
                                have e3 : traceT p n qrt rlt =
                                    traceT p (size qrt + size rlt) qrt rlt :=
                                  traceT_fuel_eq p n _ qrt rlt (by omega) (by omega)
                                have e4 : traceT p n qrt rrt =
                                    traceT p (size qrt + size rrt) qrt rrt :=
                                  traceT_fuel_eq p n _ qrt rrt (by omega) (by omega)
                                rw [e1, e2, e3, e4,
                                  ih qlt rlt (qp ++ [false]) (rp ++ [false]) hq.1 hr.1,
                                  ih qlt rrt (qp ++ [false]) (rp ++ [true]) hq.1 hr.2,
                                  ih qrt rlt (qp ++ [true]) (rp ++ [false]) hq.2 hr.1,
                                  ih qrt rrt (qp ++ [true]) (rp ++ [true]) hq.2 hr.2]
                                simp [List.append_assoc]

theorem pathValBE_append (xs : List Nat) (c : Nat) :
    pathValBE (xs ++ [c]) = 4 * pathValBE xs + c := by
  simp [pathValBE, List.foldl_append]

theorem zip_code_append (qp rp : List Bool) (a b : Bool)
    (h : qp.length = rp.length) :
    List.zipWith branchCode (qp ++ [a]) (rp ++ [b]) =
      List.zipWith branchCode qp rp ++ [branchCode a b] := by
  rw [List.zipWith_append _ _ _ _ _ h]
  rfl

/-- The targets of the dispatch enumeration from a pair at combined path
value `v` all lie in the block `[v * 4^k + 1, (v+1) * 4^k + 1)` and are
strictly increasing in enumeration order. -/
theorem denum_targets {σ : Type} (p : BSTree → BSTree → Bool) (s0 : σ) :
    ∀ k q r qp rp, qp.length = rp.length →
      (∀ dsp ∈ denum p s0 k q r qp rp,
        pathValBE (List.zipWith branchCode qp rp) * 4 ^ k + 1 ≤ dsp.1 ∧
        dsp.1 < (pathValBE (List.zipWith branchCode qp rp) + 1) * 4 ^ k + 1) ∧
      List.Pairwise (· < ·)
        ((denum p s0 k q r qp rp).map (fun dsp => dsp.1)) := by
  intro k
  induction k with
  | zero =>
      intro q r qp rp hlen
      constructor
      · intro dsp hd
        simp only [denum, List.mem_cons, List.not_mem_nil, or_false] at hd
        subst hd
        rw [getTarget_big_endian qp rp hlen]
        simp
      · simp [denum]
  | succ k ih =>
      intro q r qp rp hlen
      simp only [denum]
      by_cases hp : p q r
      · simp [hp]
      · simp only [hp, if_false, Bool.false_eq_true]
        cases q with
        | mk qb qc ql qr =>
            cases r with
            | mk rb rc rl rr =>
                cases ql with
                | none => simp
                | some qlt =>
                cases qr with
                | none => simp
                | some qrt =>
                cases rl with
                | none => simp
                | some rlt =>
                cases rr with
                | none => simp
                | some rrt =>
                set v := pathValBE (List.zipWith branchCode qp rp) with hv
                have hlen2 : ∀ a b : Bool,
                    (qp ++ [a]).length = (rp ++ [b]).length := by
                  intro a b; simp [hlen]
                have vLL : pathValBE (List.zipWith branchCode (qp ++ [false])
                    (rp ++ [false])) = 4 * v := by
                  rw [zip_code_append qp rp _ _ hlen, pathValBE_append]
                  simp [branchCode]
                have vLR : pathValBE (List.zipWith branchCode (qp ++ [false])
                    (rp ++ [true])) = 4 * v + 1 := by
                  rw [zip_code_append qp rp _ _ hlen, pathValBE_append]
                  simp [branchCode]
                have vRL : pathValBE (List.zipWith branchCode (qp ++ [true])
                    (rp ++ [false])) = 4 * v + 2 := by
                  rw [zip_code_append qp rp _ _ hlen, pathValBE_append]
                  simp [branchCode]
                have vRR : pathValBE (List.zipWith branchCode (qp ++ [true])
                    (rp ++ [true])) = 4 * v + 3 := by
                  rw [zip_code_append qp rp _ _ hlen, pathValBE_append]
                  simp [branchCode]
                have hA := ih qlt rlt (qp ++ [false]) (rp ++ [false])
                  (hlen2 false false)
                have hB := ih qlt rrt (qp ++ [false]) (rp ++ [true])
                  (hlen2 false true)
                have hC := ih qrt rlt (qp ++ [true]) (rp ++ [false])
                  (hlen2 true false)
                have hD := ih qrt rrt (qp ++ [true]) (rp ++ [true])
                  (hlen2 true true)
                rw [vLL] at hA
                rw [vLR] at hB
                rw [vRL] at hC
                rw [vRR] at hD
                have e1 : v * 4 ^ (k + 1) = 4 * v * 4 ^ k := by ring
                have e2 : (v + 1) * 4 ^ (k + 1) = (4 * v + 3 + 1) * 4 ^ k := by
                  ring
                have m1 : (4 * v) * 4 ^ k ≤ (4 * v + 1) * 4 ^ k :=
                  Nat.mul_le_mul_right _ (by omega)
                have m2 : (4 * v + 1) * 4 ^ k ≤ (4 * v + 1 + 1) * 4 ^ k :=
                  Nat.mul_le_mul_right _ (by omega)
                have m3 : (4 * v + 1 + 1) * 4 ^ k ≤ (4 * v + 2 + 1) * 4 ^ k :=
                  Nat.mul_le_mul_right _ (by omega)
                have m4 : (4 * v + 2 + 1) * 4 ^ k ≤ (4 * v + 3 + 1) * 4 ^ k :=
                  Nat.mul_le_mul_right _ (by omega)
                have m2' : (4 * v + 1) * 4 ^ k ≤ (4 * v + 2) * 4 ^ k :=
                  Nat.mul_le_mul_right _ (by omega)
                have m3' : (4 * v + 2) * 4 ^ k ≤ (4 * v + 3) * 4 ^ k :=
                  Nat.mul_le_mul_right _ (by omega)
                have e2a : (4 * v + 1 + 1) * 4 ^ k = (4 * v + 2) * 4 ^ k := by
                  ring
                have e3a : (4 * v + 2 + 1) * 4 ^ k = (4 * v + 3) * 4 ^ k := by
                  ring
                constructor
                · intro dsp hd
                  simp only [List.mem_append] at hd
                  rcases hd with ((hd | hd) | hd) | hd
                  · have := hA.1 dsp hd
                    constructor <;> omega
                  · have := hB.1 dsp hd
                    constructor <;> omega
                  · have := hC.1 dsp hd
                    constructor <;> omega
                  · have := hD.1 dsp hd
                    constructor <;> omega
                · simp only [List.map_append]
                  rw [List.pairwise_append, List.pairwise_append,
                    List.pairwise_append]
                  have memA : ∀ x ∈ (denum p s0 k qlt rlt (qp ++ [false])
                      (rp ++ [false])).map (fun dsp => dsp.1),
                      (4 * v) * 4 ^ k + 1 ≤ x ∧ x < (4 * v + 1) * 4 ^ k + 1 := by
                    intro x hx
                    obtain ⟨dsp, hd, rfl⟩ := List.mem_map.mp hx
                    exact hA.1 dsp hd
                  have memB : ∀ x ∈ (denum p s0 k qlt rrt (qp ++ [false])
                      (rp ++ [true])).map (fun dsp => dsp.1),
                      (4 * v + 1) * 4 ^ k + 1 ≤ x ∧
                        x < (4 * v + 1 + 1) * 4 ^ k + 1 := by
                    intro x hx
                    obtain ⟨dsp, hd, rfl⟩ := List.mem_map.mp hx
                    exact hB.1 dsp hd
                  have memC : ∀ x ∈ (denum p s0 k qrt rlt (qp ++ [true])
                      (rp ++ [false])).map (fun dsp => dsp.1),
                      (4 * v + 2) * 4 ^ k + 1 ≤ x ∧
                        x < (4 * v + 2 + 1) * 4 ^ k + 1 := by
                    intro x hx
                    obtain ⟨dsp, hd, rfl⟩ := List.mem_map.mp hx
                    exact hC.1 dsp hd
                  have memD : ∀ x ∈ (denum p s0 k qrt rrt (qp ++ [true])
                      (rp ++ [true])).map (fun dsp => dsp.1),
                      (4 * v + 3) * 4 ^ k + 1 ≤ x ∧
                        x < (4 * v + 3 + 1) * 4 ^ k + 1 := by
                    intro x hx
                    obtain ⟨dsp, hd, rfl⟩ := List.mem_map.mp hx
                    exact hD.1 dsp hd
                  refine ⟨⟨⟨hA.2, hB.2, ?_⟩, hC.2, ?_⟩, hD.2, ?_⟩
                  · intro a ha b hb
                    have h1 := memA a ha
                    have h2 := memB b hb
                    omega
                  · intro a ha b hb
                    simp only [List.mem_append] at ha
                    rcases ha with ha | ha
                    · have h1 := memA a ha
                      have h2 := memC b hb
                      omega
                    · have h1 := memB a ha
                      have h2 := memC b hb
                      omega
                  · intro a ha b hb
                    simp only [List.mem_append] at ha
                    rcases ha with (ha | ha) | ha
                    · have h1 := memA a ha
                      have h2 := memD b hb
                      omega
                    · have h1 := memB a ha
                      have h2 := memD b hb
                      omega
                    · have h1 := memC a ha
                      have h2 := memD b hb
                      omega

theorem list_foldl_ext {α β : Type} (f g : β → α → β) (l : List α)
    (h : ∀ x ∈ l, ∀ acc, f acc x = g acc x) :
    ∀ s, l.foldl f s = l.foldl g s := by
  induction l with
  | nil => intro s; rfl
  | cons x rest ih =>
      intro s
      simp only [List.foldl_cons]
      rw [h x (List.mem_cons_self x rest) s]
      exact ih (fun y hy => h y (List.mem_cons_of_mem x hy)) _

/-- Folding the per-rank receive slots in ascending rank order — each slot
holding the result of the unique task dispatched to that rank, or the empty
default — equals folding the dispatch list itself, provided the dispatch
targets are strictly increasing and lie within the rank range. -/
theorem fold_ranks {σ : Type} (R : RuleModel σ)
    (hempty : ∀ s, R.merge s R.empty = s)
    (F : Nat × σ × BSTree × BSTree → σ) :
    ∀ n a (ds : List (Nat × σ × BSTree × BSTree)) (s : σ),
      List.Pairwise (· < ·) (ds.map (fun d => d.1)) →
      (∀ d ∈ ds, a + 1 ≤ d.1 ∧ d.1 < a + n + 1) →
      (List.range' (a + 1) n).foldl
        (fun s2 k => match ds.find? (fun d => d.1 == k) with
          | some d => R.merge s2 (F d)
          | none => R.merge s2 R.empty) s
        = ds.foldl (fun s2 d => R.merge s2 (F d)) s := by
  intro n
  induction n with
  | zero =>
      intro a ds s _ hbound
      cases ds with
      | nil => rfl
      | cons d rest =>
          have := hbound d (List.mem_cons_self d rest)
          omega
  | succ n ih =>
      intro a ds s hpw hbound
      rw [List.range'_succ (a + 1) n 1]
      simp only [List.foldl_cons]
      cases ds with
      | nil =>
          rw [show (List.find? (fun d => d.1 == a + 1)
              ([] : List (Nat × σ × BSTree × BSTree))) = none from rfl]
          rw [show a + 1 + 1 = (a + 1) + 1 from rfl]
          rw [ih (a + 1) [] _ (by simp) (by simp)]
          simp [hempty]
      | cons d rest =>
          have hbd := hbound d (List.mem_cons_self d rest)
          simp only [List.map_cons] at hpw
          have hpw2 := List.pairwise_cons.mp hpw
          by_cases hda : d.1 = a + 1
          · rw [List.find?_cons_of_pos _ (by simp [hda])]
            have hstep : ∀ k ∈ List.range' (a + 1 + 1) n, ∀ acc : σ,
                (match (d :: rest).find? (fun x => x.1 == k) with
                  | some x => R.merge acc (F x)
                  | none => R.merge acc R.empty) =
                (match rest.find? (fun x => x.1 == k) with
                  | some x => R.merge acc (F x)
                  | none => R.merge acc R.empty) := by
              intro k hk acc
              have hk2 : a + 2 ≤ k := by
                have := List.mem_range'_1.mp hk
                omega
              rw [List.find?_cons_of_neg _ (by simp; omega)]
            rw [list_foldl_ext _ _ _ hstep]
            rw [ih (a + 1) rest (R.merge s (F d))
              hpw2.2
              (by
                intro d2 hd2
                have hlt : d.1 < d2.1 := by
                  have := hpw2.1 d2.1 (List.mem_map_of_mem (fun x => x.1) hd2)
                  simpa using this
                have := hbound d2 (List.mem_cons_of_mem d hd2)
                omega)]
            rfl
          · have hfind : (d :: rest).find? (fun x => x.1 == a + 1) = none := by
              apply List.find?_eq_none.mpr
              intro x hx
              rcases List.mem_cons.mp hx with h | h
              · subst h
                simp
                omega
              · have hlt : d.1 < x.1 := by
                  have := hpw2.1 x.1 (List.mem_map_of_mem (fun y => y.1) h)
                  simpa using this
                simp
                omega
            rw [hfind, hempty]
            exact ih (a + 1) (d :: rest) s hpw
              (by
                intro d2 hd2
                rcases List.mem_cons.mp hd2 with h | h
                · subst h
                  omega
                · have hlt : d.1 < d2.1 := by
                    have := hpw2.1 d2.1 (List.mem_map_of_mem (fun y => y.1) h)
                    simpa using this
                  have := hbound d2 (List.mem_cons_of_mem d h)
                  omega)

theorem fold_merge_applyBC {σ : Type} (R : RuleModel σ) (s0 : σ)
    (hmerge : ∀ s l, R.merge s (applyBC R s0 l) = applyBC R s l)
    (T : Nat × σ × BSTree × BSTree → List (Nat × Nat)) :
    ∀ (ds : List (Nat × σ × BSTree × BSTree)) (L : List (Nat × Nat)),
      ds.foldl (fun s dd => R.merge s (applyBC R s0 (T dd))) (applyBC R s0 L) =
        applyBC R s0 (L ++ ds.bind T) := by
  intro ds
  induction ds with
  | nil => intro L; simp
  | cons dd rest ih =>
      intro L
      simp only [List.foldl_cons, List.cons_bind]
      rw [hmerge (applyBC R s0 L) (T dd), ← applyBC_append, ih (L ++ T dd)]
      simp [List.append_assoc]

theorem foldl_range_shift {σ : Type} (G : σ → Nat → σ) (W : Nat) (s : σ) :
    (List.range W).foldl (fun s2 i => G s2 (i + 1)) s =
      (List.range' 1 W).foldl G s := by
  rw [List.range_eq_range' W,
    show List.range' 1 W = (List.range' 0 W).map (1 + ·) from
      (List.map_add_range' 1 0 W 1).symm,
    List.foldl_map]
  exact list_foldl_ext _ _ _ (fun x _ acc => by rw [Nat.add_comm]) s

/-- Claim C1, amended: the distributed traversal's merged result equals the
single-process traversal's result provided (i) the worker count matches the
dispatch depth exactly (`W = 4^d`), (ii) both trees reach the dispatch depth
as genuine four-way dual splits (`uniformDeep`, the protocol's documented
assumption), (iii) the Rule's pruning score does not depend on the
accumulated result state, and (iv) the Rule's merge folds an empty table as
the identity and replays a worker table built from the dispatch snapshot onto
the coordinator state.  The counterexample `distributed_differs_from_single`
shows the claim fails without (iii). -/
theorem distributed_eq_single {σ : Type} (R : RuleModel σ)
    (p : BSTree → BSTree → Bool)
    (hs : ∀ s q r, R.score s q r = p q r)
    (hempty : ∀ s, R.merge s R.empty = s)
    (s0 : σ)
    (hmerge : ∀ s l, R.merge s (applyBC R s0 l) = applyBC R s l)
    (d W : Nat) (hW : W = 4 ^ d)
    (q r : BSTree) (hq : uniformDeep d q = true) (hr : uniformDeep d r = true)
    (fuel : Nat) (hfuel : size q + size r ≤ fuel) :
    distributedResult R W fuel s0 q r = singleTraverse R fuel s0 q r := by
  subst hW
  have hdfuel : d < fuel := by
    have h1 := uniformDeep_size d q hq
    have h2 := size_pos r
    omega
  have hm := master_denum R p hs d d fuel 0 s0 q r [] []
    (by omega) (by omega) hq hr
  set ds := denum p s0 d q r [] [] with hds
  have htargets := denum_targets p s0 d q r [] [] rfl
  have hbounds : ∀ dsp ∈ ds, 0 + 1 ≤ dsp.1 ∧ dsp.1 < 0 + 4 ^ d + 1 := by
    intro dsp hd
    have := htargets.1 dsp hd
    have hv : pathValBE (List.zipWith branchCode ([] : List Bool) []) = 0 := rfl
    rw [hv] at this
    omega
  have main1 : distributedResult R (4 ^ d) fuel s0 q r =
      (List.range' 1 (4 ^ d)).foldl
        (fun s2 k => match ds.find? (fun dd => dd.1 == k) with
          | some dd => R.merge s2 (workerRun R fuel dd)
          | none => R.merge s2 R.empty) s0 := by
    unfold distributedResult
    rw [hm]
    exact foldl_range_shift
      (fun s2 k => match ds.find? (fun dd => dd.1 == k) with
        | some dd => R.merge s2 (workerRun R fuel dd)
        | none => R.merge s2 R.empty) (4 ^ d) s0
  have main2 : (List.range' 1 (4 ^ d)).foldl
      (fun s2 k => match ds.find? (fun dd => dd.1 == k) with
        | some dd => R.merge s2 (workerRun R fuel dd)
        | none => R.merge s2 R.empty) s0 =
      ds.foldl (fun s2 dd => R.merge s2 (workerRun R fuel dd)) s0 :=
    fold_ranks R hempty (workerRun R fuel) (4 ^ d) 0 ds s0 htargets.2 hbounds
  have main3 : ds.foldl (fun s2 dd => R.merge s2 (workerRun R fuel dd)) s0 =
      ds.foldl (fun s2 dd => R.merge s2 (applyBC R s0
        (traceT p (size dd.2.2.1 + size dd.2.2.2) dd.2.2.1 dd.2.2.2))) s0 := by
    apply list_foldl_ext
    intro dd hdd acc
    congr 1
    have hsnap := denum_snapshot p s0 d q r [] [] dd hdd
    have hsz := denum_sizes p s0 d q r [] [] dd hdd
    unfold workerRun
    rw [hsnap, singleTraverse_trace R p hs fuel s0 dd.2.2.1 dd.2.2.2,
      traceT_fuel_eq p fuel (size dd.2.2.1 + size dd.2.2.2) dd.2.2.1 dd.2.2.2
        (by omega) (by omega)]
  have main4 : ds.foldl (fun s2 dd => R.merge s2 (applyBC R s0
      (traceT p (size dd.2.2.1 + size dd.2.2.2) dd.2.2.1 dd.2.2.2))) s0 =
      applyBC R s0 (ds.bind (fun dd =>
        traceT p (size dd.2.2.1 + size dd.2.2.2) dd.2.2.1 dd.2.2.2)) := by
    have h := fold_merge_applyBC R s0 hmerge
      (fun dd => traceT p (size dd.2.2.1 + size dd.2.2.2) dd.2.2.1 dd.2.2.2)
      ds []
    simpa using h
  have main5 : applyBC R s0 (ds.bind (fun dd =>
      traceT p (size dd.2.2.1 + size dd.2.2.2) dd.2.2.1 dd.2.2.2)) =
      applyBC R s0 (traceT p (size q + size r) q r) := by
    rw [← trace_denum p s0 d q r [] [] hq hr]
  have main6 : applyBC R s0 (traceT p (size q + size r) q r) =
      singleTraverse R fuel s0 q r := by
    rw [← traceT_fuel_eq p fuel (size q + size r) q r (by omega) (by omega),
      ← singleTraverse_trace R p hs fuel s0 q r]
  rw [main1, main2, main3, main4, main5, main6]

/-- A state-independent Rule for the witness: never prune, accumulate the
base-case pairs, merge by concatenation. -/
def ruleConcat : RuleModel (List (Nat × Nat)) where
  score _ _ _ := false
  baseCase s i j := s ++ [(i, j)]
  merge s w := s ++ w
  empty := []

theorem ruleConcat_applyBC : ∀ (l : List (Nat × Nat)) (s : List (Nat × Nat)),
    applyBC ruleConcat s l = s ++ l := by
  intro l
  induction l with
  | nil => intro s; simp [applyBC]
  | cons x rest ih =>
      intro s
      cases x with
      | mk i j =>
          simp [applyBC, ruleConcat, List.foldl_cons] at ih ⊢
          rw [ih]
          simp

/-- Witness for the amended C1 at the concrete instance: one dispatch level,
4 workers, the two-point trees, the concatenating Rule. -/
theorem distributed_eq_single_witness :
    distributedResult ruleConcat 4 12 [] T2 T2 =
      singleTraverse ruleConcat 12 [] T2 T2 :=
  distributed_eq_single ruleConcat (fun _ _ => false)
    (fun _ _ _ => rfl)
    (fun s => by simp [ruleConcat])
    []
    (fun s l => by
      rw [ruleConcat_applyBC l ([] : List (Nat × Nat)), ruleConcat_applyBC l s]
      show s ++ ([] ++ l) = s ++ l
      simp)
    1 4 (by norm_num) T2 T2 (by decide) (by decide) 12 (by decide)

end MlpackTree
